import Mathlib

/-!
Verification of the namespace-destination resolution and action-dispatch
engine of the `argx` / `argparse_charged` command-line parsing library.

The Python code is shallowly embedded.  Python `argparse.Namespace` objects
and Python `list` objects are mutable heap objects, so the embedding carries
an explicit heap: `Heap.nsCells` holds the attribute dictionary of each
Namespace object (addressed by a natural-number reference) and
`Heap.listCells` holds the contents of each list object.  Attribute values
are modelled by `Value`; a reference value (`vnsref` / `vlistref`) points
into the corresponding heap component.  Fallible Python code (exceptions)
is modelled with `Except`.
-/

set_option maxHeartbeats 1000000

namespace Argx

/-- A Python runtime value as stored in a namespace attribute.
Scalars are immediate; Namespace objects and list objects are references
into the heap.  `vconf` is an opaque configuration object (a mapping or
collection loaded from a configuration file) stored as an attribute or as
a declaration default. -/
inductive Conf where
  | cnull : Conf
  | cbool (b : Bool) : Conf
  | cint (n : Int) : Conf
  | cstr (s : String) : Conf
  | clist (xs : List Conf) : Conf
  | cdict (es : List (String × Conf)) : Conf

inductive Value where
  | vnone : Value
  | vbool (b : Bool) : Value
  | vint (n : Int) : Value
  | vstr (s : String) : Value
  | vfloat (repr : String) : Value
  | vconf (c : Conf) : Value
  | vnsref (r : Nat) : Value
  | vlistref (r : Nat) : Value

/-- The heap: attribute dictionaries of Namespace objects and contents of
list objects, addressed by position. -/
structure Heap where
  nsCells : List (List (String × Value))
  listCells : List (List Value)

/-- Python exceptions that the embedded fragment can raise. -/
inductive PyExc where
  | attributeError
  | keyError
  | typeError
  deriving Repr, DecidableEq

/-! String primitives (`"." in dest`, `dest.split(".")`,
`arg.endswith(suffix)`, `arg[0]`, `arg[1:]`), implemented over the
character list so that they evaluate on concrete inputs. -/

/-- `s.split(sep)` for a one-character separator, over character lists:
`splitChars sep cs acc` processes `cs` with `acc` holding the current
segment reversed. -/
def splitChars (sep : Char) : List Char → List Char → List (List Char)
  | [], acc => [acc.reverse]
  | c :: rest, acc =>
    if c = sep then acc.reverse :: splitChars sep rest []
    else splitChars sep rest (c :: acc)

/-- Python `s.split(sep)` for a one-character separator. -/
def pySplit (s : String) (sep : Char) : List String :=
  (splitChars sep s.data []).map String.mk

/-- Python `s.endswith(suffix)`. -/
def pyEndsWith (s suffix : String) : Bool :=
  suffix.data.isSuffixOf s.data

/-- Python `s[n:]`. -/
def pyDrop (s : String) (n : Nat) : String :=
  String.mk (s.data.drop n)

/-- Python `s[0]` (callers guard against the empty string). -/
def pyHead (s : String) : Char :=
  s.data.headD ' '

namespace Heap

/-- `getattr(ns, key, None)`-style lookup, as an `Option`:
`none` when the object does not exist or has no such attribute. -/
def getAttr (h : Heap) (r : Nat) (key : String) : Option Value :=
  match h.nsCells[r]? with
  | some attrs => (attrs.find? (fun p => p.1 == key)).map (·.2)
  | none => none

/-- Update one binding of an attribute dictionary (insert at the end when
the key is new, replace in place otherwise) — the observable behaviour of
`setattr` on a Namespace. -/
def setEntry (attrs : List (String × Value)) (key : String) (v : Value) :
    List (String × Value) :=
  if attrs.any (fun p => p.1 == key) then
    attrs.map (fun p => if p.1 == key then (key, v) else p)
  else
    attrs ++ [(key, v)]

/-- `setattr(ns, key, v)` on the Namespace object `r`. -/
def setAttr (h : Heap) (r : Nat) (key : String) (v : Value) : Heap :=
  { h with nsCells :=
      match h.nsCells[r]? with
      | some attrs => h.nsCells.set r (setEntry attrs key v)
      | none => h.nsCells }

/-- Allocate a fresh empty Namespace object (`Namespace()`). -/
def allocNs (h : Heap) : Heap × Nat :=
  ({ h with nsCells := h.nsCells ++ [[]] }, h.nsCells.length)

/-- Allocate a fresh list object with the given contents. -/
def allocList (h : Heap) (xs : List Value) : Heap × Nat :=
  ({ h with listCells := h.listCells ++ [xs] }, h.listCells.length)

/-- Contents of the list object `r` (empty when the reference is dangling;
well-formed states never expose that case). -/
def getListD (h : Heap) (r : Nat) : List Value :=
  (h.listCells[r]?).getD []

/-- `items.append(v)` on the list object `r`. -/
def listAppend (h : Heap) (r : Nat) (v : Value) : Heap :=
  { h with listCells := h.listCells.set r (h.getListD r ++ [v]) }

/-- `items.extend(vs)` on the list object `r`. -/
def listExtend (h : Heap) (r : Nat) (vs : List Value) : Heap :=
  { h with listCells := h.listCells.set r (h.getListD r ++ vs) }

end Heap

/-- A namespace-reference value is in range for a heap with `n` namespace
cells.  (Other values impose no constraint.) -/
def valueNsOk (n : Nat) : Value → Bool
  | .vnsref r => r < n
  | _ => true

/-- Well-formedness of the namespace graph: every namespace reference
stored in any attribute dictionary points to an existing cell. -/
def Heap.wfNs (h : Heap) : Bool :=
  h.nsCells.all fun cell => cell.all fun p => valueNsOk h.nsCells.length p.2

/-- `g` extends `h`: every attribute whose value is not `None` keeps its
value.  The dotted-path resolver only ever overwrites missing or `None`
attributes, so the heaps it produces extend their inputs. -/
def Heap.Extends (g h : Heap) : Prop :=
  ∀ r key v, h.getAttr r key = some v → v ≠ .vnone → g.getAttr r key = some v

/-- `value is None` in Python. -/
def Value.isNone : Value → Bool
  | .vnone => true
  | _ => false

/-- The walk over the intermediate segments inside `get_ns_dest`
(`src/argparse_charged/utils.py`, the `for key in keys[:-1]` loop).
`cur` is the Python variable `ns`; each step runs
`value = getattr(ns, key, None)` (so a missing attribute reads as `None`),
creates and attaches a fresh Namespace when `value is None`, and walks
into `value` otherwise.  Reaching `setattr`/`getattr` with a
non-Namespace `ns` raises `AttributeError`. -/
def resolveSteps : Heap → Value → List String → Except PyExc (Heap × Value)
  | h, cur, [] => .ok (h, cur)
  | h, cur, key :: rest =>
    match cur with
    | .vnsref r =>
      let value := (h.getAttr r key).getD .vnone
      if value.isNone then
        let p := h.allocNs
        resolveSteps (p.1.setAttr r key (.vnsref p.2)) (.vnsref p.2) rest
      else resolveSteps h value rest
    | _ => .error .attributeError

/-- `get_ns_dest(namespace, dest)` from `src/argparse_charged/utils.py`:
returns the container object and the final key.  The no-dot fast path
returns the root itself with the whole string, touching nothing. -/
def get_ns_dest (h : Heap) (root : Nat) (dest : String) :
    Except PyExc (Heap × Value × String) :=
  if dest.data.contains '.' = false then .ok (h, .vnsref root, dest)
  else
    let keys := pySplit dest '.'
    match resolveSteps h (.vnsref root) keys.dropLast with
    | .ok (h1, ns) => .ok (h1, ns, keys.getLastD "")
    | .error e => .error e

/-- Pure read-back of a key path (no creation): follows attributes from
`cur`, failing on a missing attribute or a non-namespace intermediate. -/
def readPath : Heap → Value → List String → Option Value
  | _, cur, [] => some cur
  | h, .vnsref r, key :: rest =>
    match h.getAttr r key with
    | some v => readPath h v rest
    | none => none
  | _, _, _ :: _ => none

/-! ## Actions (`src/argparse_charged/action.py`)

Each action's `apply` receives the root namespace and the declaration's
`dest`; it resolves the destination with `get_ns_dest` and updates the
leaf.  `copy_items` (`src/argparse_charged/utils.py`) copies the current
items: `None` becomes a fresh empty list, a list is copied with `[:]`;
any other object is returned by `copy.copy` unchanged, so the subsequent
`.append` on it raises `AttributeError` (folded into the error case). -/

/-- `copy_items` applied to `getattr(ns, dest, None)`, returning a fresh
list object ready to be mutated. -/
def copy_items (h : Heap) (items : Option Value) : Except PyExc (Heap × Nat) :=
  match items with
  | none => .ok (h.allocList [])
  | some .vnone => .ok (h.allocList [])
  | some (.vlistref r) => .ok (h.allocList (h.getListD r))
  | some _ => .error .attributeError

/-- `AppendAction.__call__`: resolve, read current items (default `None`),
copy, append the incoming value, write the copy back. -/
def appendCall (h : Heap) (root : Nat) (dest : String) (values : Value) :
    Except PyExc Heap :=
  match get_ns_dest h root dest with
  | .error e => .error e
  | .ok (h1, nsv, key) =>
    match nsv with
    | .vnsref r =>
      match copy_items h1 (h1.getAttr r key) with
      | .error e => .error e
      | .ok (h2, lr) =>
        .ok ((h2.listAppend lr values).setAttr r key (.vlistref lr))
    | _ => .error .attributeError

/-- `ExtendAction.__call__`: like append, but the incoming value is a
sequence whose items are all concatenated onto the copy. -/
def extendCall (h : Heap) (root : Nat) (dest : String) (values : List Value) :
    Except PyExc Heap :=
  match get_ns_dest h root dest with
  | .error e => .error e
  | .ok (h1, nsv, key) =>
    match nsv with
    | .vnsref r =>
      match copy_items h1 (h1.getAttr r key) with
      | .error e => .error e
      | .ok (h2, lr) =>
        .ok ((h2.listExtend lr values).setAttr r key (.vlistref lr))
    | _ => .error .attributeError

/-- `ListAction.__call__` (`src/argparse_charged/action.py`, the
clear-append action, registered as `list` there and as `clear_append` in
`argx`): the `received` flag lives on the action instance; on the first
invocation the items start from a fresh empty list (the stored default is
ignored), afterwards it behaves like an ordinary append. -/
def clearAppendCall (received : Bool) (h : Heap) (root : Nat) (dest : String)
    (values : Value) : Bool × Except PyExc Heap :=
  match get_ns_dest h root dest with
  | .error e => (received, .error e)
  | .ok (h1, nsv, key) =>
    if received = false then
      -- items = []; self.received = True
      let p := h1.allocList []
      match nsv with
      | .vnsref r =>
        (true, .ok ((p.1.listAppend p.2 values).setAttr r key (.vlistref p.2)))
      | _ => (true, .error .attributeError)
    else
      let items : Option Value :=
        match nsv with
        | .vnsref r => h1.getAttr r key
        | _ => none
      match copy_items h1 items with
      | .error e => (received, .error e)
      | .ok (h2, lr) =>
        match nsv with
        | .vnsref r =>
          (received, .ok ((h2.listAppend lr values).setAttr r key (.vlistref lr)))
        | _ => (received, .error .attributeError)

/-- Modelled from the spec: `ClearExtendAction` lives in `src/argx/action.py`,
which is absent from the sources; per the spec it behaves like `extend`
except that "the very first invocation for a given action instance ignores
any pre-existing default value and starts from an empty sequence", the
first-invocation state being owned by the action instance. -/
def clearExtendCall (received : Bool) (h : Heap) (root : Nat) (dest : String)
    (values : List Value) : Bool × Except PyExc Heap :=
  match get_ns_dest h root dest with
  | .error e => (received, .error e)
  | .ok (h1, nsv, key) =>
    if received = false then
      let p := h1.allocList []
      match nsv with
      | .vnsref r =>
        (true, .ok ((p.1.listExtend p.2 values).setAttr r key (.vlistref p.2)))
      | _ => (true, .error .attributeError)
    else
      let items : Option Value :=
        match nsv with
        | .vnsref r => h1.getAttr r key
        | _ => none
      match copy_items h1 items with
      | .error e => (received, .error e)
      | .ok (h2, lr) =>
        match nsv with
        | .vnsref r =>
          (received, .ok ((h2.listExtend lr values).setAttr r key (.vlistref lr)))
        | _ => (received, .error .attributeError)

/-- Iterate the clear-append action instance over the value groups matched
during one token-consumption pass (aborting on an exception, as the
grammar driver would). -/
def runClearAppend (received : Bool) (h : Heap) (root : Nat) (dest : String) :
    List Value → Bool × Except PyExc Heap
  | [] => (received, .ok h)
  | g :: gs =>
    match clearAppendCall received h root dest g with
    | (rcv, .ok h1) => runClearAppend rcv h1 root dest gs
    | (rcv, .error e) => (rcv, .error e)

/-- Iterate the clear-extend action instance over the value groups matched
during one token-consumption pass. -/
def runClearExtend (received : Bool) (h : Heap) (root : Nat) (dest : String) :
    List (List Value) → Bool × Except PyExc Heap
  | [] => (received, .ok h)
  | g :: gs =>
    match clearExtendCall received h root dest g with
    | (rcv, .ok h1) => runClearExtend rcv h1 root dest gs
    | (rcv, .error e) => (rcv, .error e)

/-- One matched occurrence during token consumption, for the ordinary
append/extend actions. -/
inductive Invocation where
  | app (dest : String) (v : Value)
  | ext (dest : String) (vs : List Value)

/-- Run a sequence of append/extend invocations (aborting on exception). -/
def runInvocations (h : Heap) (root : Nat) :
    List Invocation → Except PyExc Heap
  | [] => .ok h
  | .app dest v :: rest =>
    match appendCall h root dest v with
    | .ok h1 => runInvocations h1 root rest
    | .error e => .error e
  | .ext dest vs :: rest =>
    match extendCall h root dest vs with
    | .ok h1 => runInvocations h1 root rest
    | .error e => .error e

/-! ## Default-merge engine (`set_defaults_from_configs`,
`src/argx/parser.py` and `src/argparse_charged/parser.py`; the same walk
appears in `update_actions_with_preset`, `src/argparse_charged/utils.py`).

Configuration data loaded by the external `Config.load` collaborator is
modelled by `Conf`.  `cf[part]` on a mapping raises `KeyError` when the
key is absent and `TypeError` when `cf` is not a mapping; only `KeyError`
is caught by the merge loop. -/

/-- `cf[k]` subscript on a configuration object. -/
def confGet (c : Conf) (k : String) : Except PyExc Conf :=
  match c with
  | .cdict es =>
    match es.find? (fun p => p.1 == k) with
    | some p => .ok p.2
    | none => .error .keyError
  | _ => .error .typeError

/-- The walk `for part in parts[:-1]: cf = cf[part]`. -/
def confGetPath : Conf → List String → Except PyExc Conf
  | c, [] => .ok c
  | c, k :: rest =>
    match confGet c k with
    | .ok c1 => confGetPath c1 rest
    | .error e => .error e

/-- The whole dotted lookup `conf[p1][p2]...[pn]` done by the merge for a
dotted dest split into `parts`: walk all but the last segment, then index
the final key. -/
def walkConf (conf : Conf) (parts : List String) : Except PyExc Conf :=
  match confGetPath conf parts.dropLast with
  | .ok cf => confGet cf (parts.getLastD "")
  | .error e => .error e

/-- `action.dest in conf` membership test on the top-level mapping. -/
def confHasKey (c : Conf) (k : String) : Bool :=
  match c with
  | .cdict es => es.any (fun p => p.1 == k)
  | _ => false

/-- A configuration value stored into a Python attribute or declaration
default.  Scalars become the corresponding runtime values; mappings and
collections are kept as opaque configuration objects. -/
def confValue : Conf → Value
  | .cnull => .vnone
  | .cbool b => .vbool b
  | .cint n => .vint n
  | .cstr s => .vstr s
  | c => .vconf c

/-- An option declaration, as far as the merge/seed/grouping code reads it:
`dest`, `default` and `required` (cf. `argparse.Action`). -/
structure ActionDecl where
  dest : String
  default : Value
  required : Bool

/-- The per-action body of `set_defaults_from_configs`: a dot-free dest
present as a top-level key gets its default overwritten (and `required`
cleared when `optionalize`); a dotted dest walks the configuration and is
skipped silently on `KeyError`; a `TypeError` from subscripting a
non-mapping propagates. -/
def update_action_with_conf (a : ActionDecl) (conf : Conf)
    (optionalize : Bool) : Except PyExc ActionDecl :=
  if a.dest.data.contains '.' = false then
    if confHasKey conf a.dest then
      match confGet conf a.dest with
      | .ok v =>
        .ok { a with default := confValue v,
                     required := if optionalize then false else a.required }
      | .error e => .error e
    else .ok a
  else
    let parts := pySplit a.dest '.'
    match confGetPath conf parts.dropLast with
    | .ok cf =>
      match confGet cf (parts.getLastD "") with
      | .ok v =>
        .ok { a with default := confValue v,
                     required := if optionalize then false else a.required }
      | .error .keyError => .ok a
      | .error e => .error e
    | .error .keyError => .ok a
    | .error e => .error e

/-- `set_defaults_from_configs` over the parser's action list (the
sub-parser recursion operates on child parsers and is outside the modelled
fragment). -/
def set_defaults_from_configs (actions : List ActionDecl) (conf : Conf)
    (optionalize : Bool) : Except PyExc (List ActionDecl) :=
  match actions with
  | [] => .ok []
  | a :: rest =>
    match update_action_with_conf a conf optionalize with
    | .ok a1 =>
      match set_defaults_from_configs rest conf optionalize with
      | .ok rest1 => .ok (a1 :: rest1)
      | .error e => .error e
    | .error e => .error e

/-! ## Declaration registry / grouping engine
(`_add_action` and `add_namespace`, `src/argx/parser.py` lines 379-480 and
`src/argparse_charged/parser.py` lines 266-325). -/

/-- An argument group as the registry sees it: namespace groups carry a
`name`; the declarations inserted into a group are recorded by dest. -/
structure AGroup where
  isNamespace : Bool
  name : String
  title : String
  actions : List String

/-- `add_namespace(name, title?)`: scan the registered groups for a
namespace group with the same name and raise `ValueError` if found;
otherwise create the group (with the default `namespace <name>` title of
`argx`) and append it.  The state is returned unchanged on failure. -/
def add_namespace (groups : List AGroup) (name : String)
    (title : Option String) : List AGroup × Except String Nat :=
  if groups.any (fun g => g.isNamespace && g.name == name) then
    (groups, .error ("Namespace '" ++ name ++ "' already exists"))
  else
    let t := title.getD ("namespace <" ++ name ++ ">")
    (groups ++ [{ isNamespace := true, name := name, title := t,
                  actions := [] }], .ok groups.length)

/-- What `_add_action` reads off a declaration: its dest, whether it is a
`NamespaceAction`, and whether it is required (`argx` only). -/
structure DeclInfo where
  dest : String
  isNamespaceAction : Bool
  required : Bool

/-- The descending index sequence `range(len(keys)-1, 0, -1)`:
`countdown n = [n, n-1, ..., 1]`. -/
def countdown : Nat → List Nat
  | 0 => []
  | n + 1 => (n + 1) :: countdown n

/-- `".".join(keys[:i])`. -/
def joinTake (keys : List String) (i : Nat) : String :=
  String.mk (List.intercalate ['.'] ((keys.take i).map String.data))

/-- The inner loop of `_add_action`: index of the first registered group
that is a namespace group with the given name. -/
def findNsGroup : List AGroup → String → Option Nat
  | [], _ => none
  | g :: rest, nm =>
    if g.isNamespace && g.name == nm then some 0
    else (findNsGroup rest nm).map (· + 1)

/-- The outer loop of `_add_action`: try each prefix length in `seq` in
order, returning the first (prefix length, group index) hit. -/
def firstNsMatch (groups : List AGroup) (keys : List String) :
    List Nat → Option (Nat × Nat)
  | [] => none
  | i :: rest =>
    match findNsGroup groups (joinTake keys i) with
    | some gi => some (i, gi)
    | none => firstNsMatch groups keys rest

/-- Where `_add_action` placed the declaration. -/
inductive Placed where
  | requiredGroup
  | defaultRegistry
  | nsGroup (idx : Nat)

/-- Record a declaration into group `idx`. -/
def insertIntoGroup (groups : List AGroup) (idx : Nat) (dest : String) :
    List AGroup :=
  match groups[idx]? with
  | some g => groups.set idx { g with actions := g.actions ++ [dest] }
  | none => groups

/-- `ArgumentParser._add_action` of `src/argx/parser.py`: argument groups
aside, a non-namespace declaration with a dot-free dest goes to the
required-arguments group or the default registry; otherwise the prefix
sequence is `range(len(keys)-1, 0, -1)`, preceded for a `NamespaceAction`
by the whole key list (`[None]`, i.e. `keys[:None]` = all keys); the first
existing namespace group whose name equals the joined prefix wins, and
when none matches a namespace group named after the first segment is
created.  (The model takes `action.dest` as already equal to its first
option string with the prefix characters stripped.) -/
def add_action_argx (groups : List AGroup) (d : DeclInfo) :
    List AGroup × Except String Placed :=
  if d.isNamespaceAction = false ∧ d.dest.data.contains '.' = false then
    (groups, .ok (if d.required then .requiredGroup else .defaultRegistry))
  else
    let keys := pySplit d.dest '.'
    let seq : List Nat :=
      if d.isNamespaceAction then keys.length :: countdown (keys.length - 1)
      else countdown (keys.length - 1)
    match firstNsMatch groups keys seq with
    | some p => (insertIntoGroup groups p.2 d.dest, .ok (.nsGroup p.2))
    | none =>
      match add_namespace groups (keys.headD "") none with
      | (groups1, .ok gi) =>
        (insertIntoGroup groups1 gi d.dest, .ok (.nsGroup gi))
      | (groups1, .error e) => (groups1, .error e)

/-- `ArgumentParser._add_action` of `src/argparse_charged/parser.py`: same
search, but there is no `NamespaceAction` nor required-arguments routing,
and the prefix sequence is always `range(1, len(keys))` mapped through
`keys[:-i]`, i.e. the proper prefixes from longest to shortest. -/
def add_action_charged (groups : List AGroup) (d : DeclInfo) :
    List AGroup × Except String Placed :=
  if d.dest.data.contains '.' = false then
    (groups, .ok .defaultRegistry)
  else
    let keys := pySplit d.dest '.'
    match firstNsMatch groups keys (countdown (keys.length - 1)) with
    | some p => (insertIntoGroup groups p.2 d.dest, .ok (.nsGroup p.2))
    | none =>
      match add_namespace groups (keys.headD "") none with
      | (groups1, .ok gi) =>
        (insertIntoGroup groups1 gi d.dest, .ok (.nsGroup gi))
      | (groups1, .error e) => (groups1, .error e)

/-! ## Lemmas on the grouping engine -/

theorem findNsGroup_some :
    ∀ (groups : List AGroup) (nm : String) (gi : Nat),
    findNsGroup groups nm = some gi →
    ∃ g, groups[gi]? = some g ∧ g.isNamespace = true ∧ g.name = nm := by
  intro groups
  induction groups with
  | nil => intro nm gi h; exact Option.noConfusion h
  | cons g rest ih =>
    intro nm gi h
    unfold findNsGroup at h
    split at h
    · rename_i hp
      obtain ⟨h1, h2⟩ := Bool.and_eq_true .. ▸ hp
      have : gi = 0 := (Option.some.inj h).symm
      subst this
      exact ⟨g, by simp, h1, eq_of_beq h2⟩
    · rcases hrec : findNsGroup rest nm with _ | j
      · rw [hrec] at h; exact Option.noConfusion h
      · rw [hrec] at h
        have : gi = j + 1 := (Option.some.inj h).symm
        subst this
        obtain ⟨g', hg', h1, h2⟩ := ih nm j hrec
        exact ⟨g', by simpa using hg', h1, h2⟩

theorem findNsGroup_none :
    ∀ (groups : List AGroup) (nm : String),
    findNsGroup groups nm = none →
    ∀ g ∈ groups, ¬(g.isNamespace = true ∧ g.name = nm) := by
  intro groups
  induction groups with
  | nil => intro nm _ g hg; exact absurd hg (List.not_mem_nil g)
  | cons g rest ih =>
    intro nm h g' hg'
    unfold findNsGroup at h
    split at h
    · exact Option.noConfusion h
    · rename_i hp
      rcases hrec : findNsGroup rest nm with _ | j
      · rcases List.mem_cons.mp hg' with hg' | hg'
        · subst hg'
          intro ⟨h1, h2⟩
          exact hp (by simp [h1, h2])
        · exact ih nm hrec g' hg'
      · rw [hrec] at h; exact Option.noConfusion h

theorem countdown_cons (n : Nat) (hn : 1 ≤ n) :
    countdown n = n :: countdown (n - 1) := by
  cases n with
  | zero => omega
  | succ m => rfl

theorem firstNsMatch_countdown_some :
    ∀ (n : Nat) (groups : List AGroup) (keys : List String) (i gi : Nat),
    firstNsMatch groups keys (countdown n) = some (i, gi) →
    1 ≤ i ∧ i ≤ n ∧ findNsGroup groups (joinTake keys i) = some gi ∧
    ∀ j, i < j → j ≤ n → findNsGroup groups (joinTake keys j) = none := by
  intro n
  induction n with
  | zero => intro groups keys i gi h; exact Option.noConfusion h
  | succ m ih =>
    intro groups keys i gi h
    unfold countdown firstNsMatch at h
    rcases hfind : findNsGroup groups (joinTake keys (m + 1)) with _ | gj
    · rw [hfind] at h
      obtain ⟨h1, h2, h3, h4⟩ := ih groups keys i gi h
      refine ⟨h1, by omega, h3, ?_⟩
      intro j hij hj
      rcases Nat.lt_or_ge j (m + 1) with hj' | hj'
      · exact h4 j hij (by omega)
      · have : j = m + 1 := by omega
        subst this
        exact hfind
    · rw [hfind] at h
      obtain ⟨hi, hgi⟩ := Prod.mk.injEq .. ▸ Option.some.inj h
      subst hi; subst hgi
      exact ⟨by omega, le_refl _, hfind, fun j hij hj => by omega⟩

theorem firstNsMatch_countdown_none :
    ∀ (n : Nat) (groups : List AGroup) (keys : List String),
    firstNsMatch groups keys (countdown n) = none →
    ∀ j, 1 ≤ j → j ≤ n → findNsGroup groups (joinTake keys j) = none := by
  intro n
  induction n with
  | zero => intro groups keys _ j h1 h2; omega
  | succ m ih =>
    intro groups keys h j h1 h2
    unfold countdown firstNsMatch at h
    rcases hfind : findNsGroup groups (joinTake keys (m + 1)) with _ | gj
    · rw [hfind] at h
      rcases Nat.lt_or_ge j (m + 1) with hj' | hj'
      · exact ih groups keys h j h1 (by omega)
      · have : j = m + 1 := by omega
        subst this
        exact hfind
    · rw [hfind] at h; exact Option.noConfusion h

theorem joinTake_one (keys : List String) (hk : keys ≠ []) :
    joinTake keys 1 = keys.headD "" := by
  rcases keys with _ | ⟨k, rest⟩
  · exact absurd rfl hk
  · show String.mk (List.intercalate ['.'] [k.data]) = k
    simp [List.intercalate]

theorem set_concat_length :
    ∀ {α : Type} (l : List α) (x y : α),
    (l ++ [x]).set l.length y = l ++ [y] := by
  intro α l
  induction l with
  | nil => intro x y; rfl
  | cons a t ih => intro x y; simp [List.set, ih]

/-- The number of prefix lengths the group search tests: all proper
prefixes for an ordinary declaration, plus the full key list for a
`NamespaceAction`. -/
def prefixBound (d : DeclInfo) : Nat :=
  if d.isNamespaceAction then (pySplit d.dest '.').length
  else (pySplit d.dest '.').length - 1

/-- Behaviour of the prefix search plus fallback of `_add_action`, over an
arbitrary tested-prefix bound: either some tested prefix length names an
existing namespace group — then the largest such length wins and the
declaration is inserted into that group — or none does and a fresh
namespace group named after the first segment is appended holding the
declaration. -/
theorem add_action_search_spec (groups : List AGroup) (keys : List String)
    (dest : String) (maxT : Nat) (hmax : 1 ≤ maxT) (hk : keys ≠ []) :
    (∃ i gi g, 1 ≤ i ∧ i ≤ maxT ∧ groups[gi]? = some g ∧
       g.isNamespace = true ∧ g.name = joinTake keys i ∧
       (∀ j, i < j → j ≤ maxT → ∀ g' ∈ groups,
          ¬(g'.isNamespace = true ∧ g'.name = joinTake keys j)) ∧
       (match firstNsMatch groups keys (countdown maxT) with
        | some p =>
          (insertIntoGroup groups p.2 dest, Except.ok (Placed.nsGroup p.2))
        | none =>
          match add_namespace groups (keys.headD "") none with
          | (groups1, Except.ok gi) =>
            (insertIntoGroup groups1 gi dest, Except.ok (Placed.nsGroup gi))
          | (groups1, Except.error e) => (groups1, Except.error e)) =
         (groups.set gi { g with actions := g.actions ++ [dest] },
          .ok (.nsGroup gi))) ∨
    ((∀ j, 1 ≤ j → j ≤ maxT → ∀ g' ∈ groups,
        ¬(g'.isNamespace = true ∧ g'.name = joinTake keys j)) ∧
       (match firstNsMatch groups keys (countdown maxT) with
        | some p =>
          (insertIntoGroup groups p.2 dest, Except.ok (Placed.nsGroup p.2))
        | none =>
          match add_namespace groups (keys.headD "") none with
          | (groups1, Except.ok gi) =>
            (insertIntoGroup groups1 gi dest, Except.ok (Placed.nsGroup gi))
          | (groups1, Except.error e) => (groups1, Except.error e)) =
         (groups ++
            [{ isNamespace := true, name := keys.headD "",
               title := "namespace <" ++ keys.headD "" ++ ">",
               actions := [dest] }],
          .ok (.nsGroup groups.length))) := by
  rcases hmatch : firstNsMatch groups keys (countdown maxT) with _ | ⟨i, gi⟩
  · right
    have hnone := firstNsMatch_countdown_none maxT groups keys hmatch
    have hfind1 : findNsGroup groups (keys.headD "") = none := by
      rw [← joinTake_one keys hk]
      exact hnone 1 (le_refl 1) hmax
    constructor
    · intro j hj1 hj2 g' hg' hcontra
      exact findNsGroup_none groups _ (hnone j hj1 hj2) g' hg' hcontra
    · have hany :
          groups.any (fun g => g.isNamespace && g.name == keys.headD "") =
            false := by
        rcases hb : groups.any
            (fun g => g.isNamespace && g.name == keys.headD "") with _ | _
        · rfl
        · obtain ⟨g', hg', hp⟩ := List.any_eq_true.mp hb
          obtain ⟨hp1, hp2⟩ := Bool.and_eq_true .. ▸ hp
          exact absurd ⟨hp1, eq_of_beq hp2⟩
            (findNsGroup_none groups _ hfind1 g' hg')
      dsimp only
      unfold add_namespace
      rw [hany]
      simp only [Bool.false_eq_true, if_false, Option.getD_none]
      unfold insertIntoGroup
      rw [List.getElem?_concat_length]
      dsimp only
      rw [set_concat_length]
      simp
  · left
    obtain ⟨hi1, hi2, hfind, hafter⟩ :=
      firstNsMatch_countdown_some maxT groups keys i gi hmatch
    obtain ⟨g, hg, hgns, hgname⟩ := findNsGroup_some groups _ gi hfind
    refine ⟨i, gi, g, hi1, hi2, hg, hgns, hgname, ?_, ?_⟩
    · intro j hij hj g' hg' hcontra
      exact findNsGroup_none groups _ (hafter j hij hj) g' hg' hcontra
    · dsimp only
      unfold insertIntoGroup
      rw [hg]

/-- C4 (amended): when a declaration with a dotted dest is added, the
`argx` registry assigns it to the existing namespace group whose name is
the longest tested dot-prefix of the dest — the tested prefixes being the
proper prefixes, from all-but-the-last-segment down to the first segment,
preceded for a namespace-merge (`NamespaceAction`) declaration by the
full dest itself — and when no tested prefix names an existing group, a
fresh namespace group named after the first path segment is created and
the declaration inserted into it.  For ordinary declarations the
`argparse_charged` registry behaves identically. -/
theorem add_action_longest_prefix (groups : List AGroup) (d : DeclInfo)
    (hdot : d.dest.data.contains '.' = true)
    (hkeys : 2 ≤ (pySplit d.dest '.').length) :
    (d.isNamespaceAction = false →
      add_action_charged groups d = add_action_argx groups d) ∧
    ((∃ i gi g, 1 ≤ i ∧ i ≤ prefixBound d ∧ groups[gi]? = some g ∧
        g.isNamespace = true ∧ g.name = joinTake (pySplit d.dest '.') i ∧
        (∀ j, i < j → j ≤ prefixBound d → ∀ g' ∈ groups,
           ¬(g'.isNamespace = true ∧
             g'.name = joinTake (pySplit d.dest '.') j)) ∧
        add_action_argx groups d =
          (groups.set gi { g with actions := g.actions ++ [d.dest] },
           .ok (.nsGroup gi))) ∨
     ((∀ j, 1 ≤ j → j ≤ prefixBound d → ∀ g' ∈ groups,
         ¬(g'.isNamespace = true ∧
           g'.name = joinTake (pySplit d.dest '.') j)) ∧
        add_action_argx groups d =
          (groups ++
            [{ isNamespace := true,
               name := (pySplit d.dest '.').headD "",
               title := "namespace <" ++ (pySplit d.dest '.').headD "" ++ ">",
               actions := [d.dest] }],
           .ok (.nsGroup groups.length)))) := by
  have hk : pySplit d.dest '.' ≠ [] := by
    intro hnil
    rw [hnil] at hkeys
    simp at hkeys
  have hcond : ¬(d.isNamespaceAction = false ∧
      d.dest.data.contains '.' = false) := by
    intro hc
    rw [hdot] at hc
    exact Bool.noConfusion hc.2
  constructor
  · intro hns
    unfold add_action_argx add_action_charged
    rw [hdot, hns]
    simp
  · have heq : add_action_argx groups d =
        (match firstNsMatch groups (pySplit d.dest '.')
            (countdown (prefixBound d)) with
         | some p =>
           (insertIntoGroup groups p.2 d.dest,
             Except.ok (Placed.nsGroup p.2))
         | none =>
           match add_namespace groups ((pySplit d.dest '.').headD "") none with
           | (groups1, Except.ok gi) =>
             (insertIntoGroup groups1 gi d.dest,
               Except.ok (Placed.nsGroup gi))
           | (groups1, Except.error e) => (groups1, Except.error e)) := by
      unfold add_action_argx
      rw [if_neg hcond]
      dsimp only
      unfold prefixBound
      cases hns : d.isNamespaceAction
      · simp only [Bool.false_eq_true, if_false]
      · simp only [if_true]
        rw [countdown_cons (pySplit d.dest '.').length (by omega)]
    have hmax : 1 ≤ prefixBound d := by
      unfold prefixBound
      cases d.isNamespaceAction <;> simp <;> omega
    rw [heq]
    exact add_action_search_spec groups (pySplit d.dest '.') d.dest
      (prefixBound d) hmax hk

/-- C4 counterexample: adding a namespace-merge declaration with dest
`"a.b"` while a namespace group named exactly `"a.b"` (and no group
`"a"`) is registered: the `argx` registry places it into the full-dest
group `"a.b"`, although `"a.b"` is not a proper dot-prefix of the dest —
the claim's procedure (proper prefixes only) would instead have created
and used a fresh group `"a"`. -/
theorem add_action_full_dest_counterexample :
    add_action_argx [⟨true, "a.b", "t", []⟩] ⟨"a.b", true, false⟩ =
      ([⟨true, "a.b", "t", ["a.b"]⟩], .ok (.nsGroup 0)) ∧
    pySplit "a.b" '.' = ["a", "b"] ∧
    joinTake (pySplit "a.b" '.') 1 = "a" ∧
    joinTake (pySplit "a.b" '.') 2 = "a.b" ∧
    (∀ g ∈ [AGroup.mk true "a.b" "t" ["a.b"]], g.name ≠ "a") := by
  refine ⟨?_, rfl, by decide, by decide, by simp⟩
  rfl

/-- C4 witness: instantiating the longest-prefix characterisation for an
ordinary declaration `a.b.c` over registered groups `a` and `a.b`. -/
theorem add_action_longest_prefix_witness :
    ((⟨"a.b.c", false, false⟩ : DeclInfo).isNamespaceAction = false →
      add_action_charged [⟨true, "a", "t", []⟩, ⟨true, "a.b", "t", []⟩]
          ⟨"a.b.c", false, false⟩ =
        add_action_argx [⟨true, "a", "t", []⟩, ⟨true, "a.b", "t", []⟩]
          ⟨"a.b.c", false, false⟩) ∧
    ((∃ i gi g, 1 ≤ i ∧ i ≤ prefixBound ⟨"a.b.c", false, false⟩ ∧
        ([⟨true, "a", "t", []⟩, ⟨true, "a.b", "t", []⟩] :
          List AGroup)[gi]? = some g ∧
        g.isNamespace = true ∧ g.name = joinTake (pySplit "a.b.c" '.') i ∧
        (∀ j, i < j → j ≤ prefixBound ⟨"a.b.c", false, false⟩ →
           ∀ g' ∈ ([⟨true, "a", "t", []⟩, ⟨true, "a.b", "t", []⟩] :
               List AGroup),
             ¬(g'.isNamespace = true ∧
               g'.name = joinTake (pySplit "a.b.c" '.') j)) ∧
        add_action_argx [⟨true, "a", "t", []⟩, ⟨true, "a.b", "t", []⟩]
            ⟨"a.b.c", false, false⟩ =
          (([⟨true, "a", "t", []⟩, ⟨true, "a.b", "t", []⟩] :
              List AGroup).set gi
             { g with actions := g.actions ++ ["a.b.c"] },
           .ok (.nsGroup gi))) ∨
     ((∀ j, 1 ≤ j → j ≤ prefixBound ⟨"a.b.c", false, false⟩ →
         ∀ g' ∈ ([⟨true, "a", "t", []⟩, ⟨true, "a.b", "t", []⟩] :
             List AGroup),
           ¬(g'.isNamespace = true ∧
             g'.name = joinTake (pySplit "a.b.c" '.') j)) ∧
        add_action_argx [⟨true, "a", "t", []⟩, ⟨true, "a.b", "t", []⟩]
            ⟨"a.b.c", false, false⟩ =
          ([⟨true, "a", "t", []⟩, ⟨true, "a.b", "t", []⟩] ++
             [{ isNamespace := true,
                name := (pySplit "a.b.c" '.').headD "",
                title :=
                  "namespace <" ++ (pySplit "a.b.c" '.').headD "" ++ ">",
                actions := ["a.b.c"] }],
           .ok (.nsGroup 2)))) :=
  add_action_longest_prefix [⟨true, "a", "t", []⟩, ⟨true, "a.b", "t", []⟩]
    ⟨"a.b.c", false, false⟩ rfl (by decide)

/-! ## Parse orchestrator (`parse_known_args`,
`src/argx/parser.py` lines 246-338 and
`src/argparse_charged/parser.py` lines 169-225).

External collaborators are parameters: `loadPy` models
`import_pyfile` (execute a host-code module and read its `args` mapping,
`src/argparse_charged/utils.py` lines 5-15), `loadConf` models
`simpleconf.Config.load` on a file path, and `superParse` models the
inherited `argparse` grammar engine `super().parse_known_args`.  `error`
on the parser (print usage + diagnostic, exit non-zero) is the
`userError` outcome; a Python exception escaping `parse_known_args` is
the `uncaught` outcome. -/

/-- Outcome of a parse attempt that did not return normally. -/
inductive PErr where
  | userError (msg : String)
  | uncaught (msg : String)

def pyExcMsg : PyExc → String
  | .attributeError => "AttributeError"
  | .keyError => "KeyError"
  | .typeError => "TypeError"

/-- Parser state read by the orchestrator. -/
structure Parser where
  actions : List ActionDecl
  exitOnVoid : Bool
  fromfilePrefixChars : Option Char

/-- Is `arg` a configuration-reference token?  (Non-empty, starts with the
configured prefix character; `@file.txt` is excluded and handed to the
grammar engine.) -/
def isConfRef (prefixChars : Option Char) (arg : String) : Bool :=
  match prefixChars with
  | none => false
  | some c => arg ≠ "" && pyHead arg == c && !(pyEndsWith arg ".txt")

/-- The `@file` pre-scan of `src/argparse_charged/parser.py` (lines
185-204): the whole load-and-merge is inside `try`, and any exception is
turned into `self.error("Cannot import [...]: ...")`.  Returns the updated
action list and the token list handed to the grammar engine. -/
def preScanCharged (loadPy loadConf : String → Except String Conf)
    (prefixChars : Option Char) (actions : List ActionDecl) :
    List String → Except PErr (List ActionDecl × List String)
  | [] => .ok (actions, [])
  | arg :: rest =>
    if isConfRef prefixChars arg then
      let name := pyDrop arg 1
      let loaded : Except String (List ActionDecl) :=
        match (if pyEndsWith name ".py" then loadPy name else loadConf name) with
        | .ok c =>
          match set_defaults_from_configs actions c true with
          | .ok acts => .ok acts
          | .error e => .error (pyExcMsg e)
        | .error msg => .error msg
      match loaded with
      | .ok acts1 => preScanCharged loadPy loadConf prefixChars acts1 rest
      | .error msg =>
        .error (.userError ("Cannot import [" ++ name ++ "]: " ++ msg))
    else
      match preScanCharged loadPy loadConf prefixChars actions rest with
      | .ok (acts1, newArgs) => .ok (acts1, arg :: newArgs)
      | .error e => .error e

/-- The `@file` pre-scan of `src/argx/parser.py` (lines 284-320), with
`fromfile_parse = True` and `fromfile_keep = False`: only `import_pyfile`
is inside `try`/`except`; a failure of `Config.load` on a non-`.py` file,
or of the merge itself, escapes `parse_known_args` as an uncaught
exception. -/
def preScanArgx (loadPy loadConf : String → Except String Conf)
    (prefixChars : Option Char) (actions : List ActionDecl) :
    List String → Except PErr (List ActionDecl × List String)
  | [] => .ok (actions, [])
  | arg :: rest =>
    if isConfRef prefixChars arg then
      let name := pyDrop arg 1
      if pyEndsWith name ".py" then
        match loadPy name with
        | .error msg =>
          .error (.userError ("Cannot import [" ++ name ++ "]: " ++ msg))
        | .ok c =>
          match set_defaults_from_configs actions c true with
          | .ok acts1 => preScanArgx loadPy loadConf prefixChars acts1 rest
          | .error e => .error (.uncaught (pyExcMsg e))
      else
        match loadConf name with
        | .error msg => .error (.uncaught msg)
        | .ok c =>
          match set_defaults_from_configs actions c true with
          | .ok acts1 => preScanArgx loadPy loadConf prefixChars acts1 rest
          | .error e => .error (.uncaught (pyExcMsg e))
    else
      match preScanArgx loadPy loadConf prefixChars actions rest with
      | .ok (acts1, newArgs) => .ok (acts1, arg :: newArgs)
      | .error e => .error e

/-- One step of the dotted-default seeding loop: for an action with a
dotted dest, resolve it and, when the leaf attribute is not yet present
(`hasattr` is false), set it to the declaration's default. -/
def seedAction (h : Heap) (root : Nat) (a : ActionDecl) :
    Except PyExc Heap :=
  if a.dest.data.contains '.' = false then .ok h
  else
    match get_ns_dest h root a.dest with
    | .error e => .error e
    | .ok (h1, nsv, key) =>
      match nsv with
      | .vnsref r =>
        match h1.getAttr r key with
        | some _ => .ok h1
        | none => .ok (h1.setAttr r key a.default)
      | _ => .error .attributeError

/-- The seeding loop over all actions. -/
def seedActions (h : Heap) (root : Nat) :
    List ActionDecl → Except PyExc Heap
  | [] => .ok h
  | a :: rest =>
    match seedAction h root a with
    | .ok h1 => seedActions h1 root rest
    | .error e => .error e

/-- `parse_known_args` of `src/argx/parser.py` with `pre_parse = None`,
`fromfile_parse = True`, `fromfile_keep = False` (the defaults): pre-scan
`@file` tokens, seed dotted defaults, delegate to the grammar engine, and
apply the void-input policy (`if not argv and not args and
self.exit_on_void: self.error("No arguments provided")`). -/
def parse_known_args_argx (loadPy loadConf : String → Except String Conf)
    (superParse : List ActionDecl → List String → Heap → Nat →
      Except PErr (Heap × List String))
    (p : Parser) (args : List String) (h : Heap) (root : Nat) :
    Except PErr (Heap × List String) :=
  match preScanArgx loadPy loadConf p.fromfilePrefixChars p.actions args with
  | .error e => .error e
  | .ok (acts1, newArgs) =>
    match seedActions h root acts1 with
    | .error e => .error (.uncaught (pyExcMsg e))
    | .ok h1 =>
      match superParse acts1 newArgs h1 root with
      | .error e => .error e
      | .ok (h2, argv) =>
        if argv.isEmpty && args.isEmpty && p.exitOnVoid then
          .error (.userError "No arguments provided")
        else .ok (h2, argv)

/-- `parse_known_args` of `src/argparse_charged/parser.py`: identical
skeleton, with the catch-all pre-scan. -/
def parse_known_args_charged (loadPy loadConf : String → Except String Conf)
    (superParse : List ActionDecl → List String → Heap → Nat →
      Except PErr (Heap × List String))
    (p : Parser) (args : List String) (h : Heap) (root : Nat) :
    Except PErr (Heap × List String) :=
  match preScanCharged loadPy loadConf p.fromfilePrefixChars p.actions args with
  | .error e => .error e
  | .ok (acts1, newArgs) =>
    match seedActions h root acts1 with
    | .error e => .error (.uncaught (pyExcMsg e))
    | .ok h1 =>
      match superParse acts1 newArgs h1 root with
      | .error e => .error e
      | .ok (h2, argv) =>
        if argv.isEmpty && args.isEmpty && p.exitOnVoid then
          .error (.userError "No arguments provided")
        else .ok (h2, argv)

/-! ## Value converters (`auto`, `src/argx/type_.py` lines 15-39 and
`src/argparse_charged/type_.py` lines 15-37).

The `int`, `float` and `json.loads` host builtins are collaborators,
modelled as total functions into `Option Value` (the `except` clauses of
`auto` catch exactly the exceptions those builtins raise on a string, so
a raised conversion is a `none`). -/

/-- `auto` of `src/argparse_charged/type_.py`: boolean words, then
`int(s)`, then `float(s)`, then `json.loads(s)`, falling back to the
original string. -/
def auto_charged (tryInt tryFloat tryJson : String → Option Value)
    (s : String) : Value :=
  if s == "True" || s == "TRUE" || s == "true" then .vbool true
  else if s == "False" || s == "FALSE" || s == "false" then .vbool false
  else
    match tryInt s with
    | some v => v
    | none =>
      match tryFloat s with
      | some v => v
      | none =>
        match tryJson s with
        | some v => v
        | none => .vstr s

/-- `auto` of `src/argx/type_.py`: as `auto_charged`, with an additional
branch mapping the words `None`/`NONE`/`none` to `None` before the
conversion attempts. -/
def auto_argx (tryInt tryFloat tryJson : String → Option Value)
    (s : String) : Value :=
  if s == "True" || s == "TRUE" || s == "true" then .vbool true
  else if s == "False" || s == "FALSE" || s == "false" then .vbool false
  else if s == "None" || s == "NONE" || s == "none" then .vnone
  else
    match tryInt s with
    | some v => v
    | none =>
      match tryFloat s with
      | some v => v
      | none =>
        match tryJson s with
        | some v => v
        | none => .vstr s

/-- Model of the host `int(str)` builtin: an optional sign followed by at
least one decimal digit (`none` models the `ValueError` the builtin
raises otherwise). -/
def digitsVal : List Char → Option Nat
  | [] => none
  | [c] => if c.isDigit then some (c.toNat - '0'.toNat) else none
  | c :: rest =>
    if c.isDigit then
      match digitsVal rest with
      | some n => some ((c.toNat - '0'.toNat) * 10 ^ rest.length + n)
      | none => none
    else none

def pyInt (s : String) : Option Value :=
  match s.data with
  | '-' :: rest => (digitsVal rest).map (fun n => .vint (-(n : Int)))
  | '+' :: rest => (digitsVal rest).map (fun n => .vint (n : Int))
  | l => (digitsVal l).map (fun n => .vint (n : Int))

/-- Model of the host `float(str)` builtin on the inputs exercised here:
`digits.digits` (the produced floating value is kept opaque). -/
def pyFloat (s : String) : Option Value :=
  match splitChars '.' s.data [] with
  | [a, b] =>
    match digitsVal a, digitsVal b with
    | some _, some _ => some (.vfloat s)
    | _, _ => none
  | _ => none

/-- Model of the host `json.loads` builtin on the inputs exercised here:
the JSON literals `null`, `true`, `false` (`none` models
`JSONDecodeError` on anything unrecognised). -/
def pyJson (s : String) : Option Value :=
  if s == "null" then some .vnone
  else if s == "true" then some (.vbool true)
  else if s == "false" then some (.vbool false)
  else none

/-! ## The `auto` converter -/

/-- C9 (amended): the heuristic auto converter is total by construction
(every conversion failure of the host `int`/`float`/`json.loads` builtins
is caught, modelled by the converters returning `none`).  It maps the
boolean words to True/False; the `argx` variant additionally maps the
words `None`/`NONE`/`none` to `None`; otherwise both variants try
integer, then float, then JSON decoding in that order, returning the
first success, and when every conversion fails they return the original
string unchanged. -/
theorem auto_conversion_order
    (tryInt tryFloat tryJson : String → Option Value) (s : String) :
    ((s = "True" ∨ s = "TRUE" ∨ s = "true") →
       auto_argx tryInt tryFloat tryJson s = .vbool true ∧
       auto_charged tryInt tryFloat tryJson s = .vbool true) ∧
    ((s = "False" ∨ s = "FALSE" ∨ s = "false") →
       auto_argx tryInt tryFloat tryJson s = .vbool false ∧
       auto_charged tryInt tryFloat tryJson s = .vbool false) ∧
    ((s = "None" ∨ s = "NONE" ∨ s = "none") →
       auto_argx tryInt tryFloat tryJson s = .vnone) ∧
    (¬(s = "True" ∨ s = "TRUE" ∨ s = "true") →
     ¬(s = "False" ∨ s = "FALSE" ∨ s = "false") →
     ¬(s = "None" ∨ s = "NONE" ∨ s = "none") →
      ((∀ v, tryInt s = some v →
         auto_argx tryInt tryFloat tryJson s = v ∧
         auto_charged tryInt tryFloat tryJson s = v) ∧
       (tryInt s = none → ∀ v, tryFloat s = some v →
         auto_argx tryInt tryFloat tryJson s = v ∧
         auto_charged tryInt tryFloat tryJson s = v) ∧
       (tryInt s = none → tryFloat s = none → ∀ v, tryJson s = some v →
         auto_argx tryInt tryFloat tryJson s = v ∧
         auto_charged tryInt tryFloat tryJson s = v) ∧
       (tryInt s = none → tryFloat s = none → tryJson s = none →
         auto_argx tryInt tryFloat tryJson s = .vstr s ∧
         auto_charged tryInt tryFloat tryJson s = .vstr s))) := by
  refine ⟨?_, ?_, ?_, ?_⟩
  · intro h
    rcases h with rfl | rfl | rfl <;> exact ⟨rfl, rfl⟩
  · intro h
    rcases h with rfl | rfl | rfl <;> exact ⟨rfl, rfl⟩
  · intro h
    rcases h with rfl | rfl | rfl <;> rfl
  · intro ht hf hn
    push_neg at ht hf hn
    have hb1 : (s == "True" || s == "TRUE" || s == "true") = false := by
      simp [ht.1, ht.2.1, ht.2.2]
    have hb2 : (s == "False" || s == "FALSE" || s == "false") = false := by
      simp [hf.1, hf.2.1, hf.2.2]
    have hb3 : (s == "None" || s == "NONE" || s == "none") = false := by
      simp [hn.1, hn.2.1, hn.2.2]
    unfold auto_argx auto_charged
    rw [hb1, hb2, hb3]
    simp only [Bool.false_eq_true, if_false]
    refine ⟨?_, ?_, ?_, ?_⟩
    · intro v hv; rw [hv]; exact ⟨rfl, rfl⟩
    · intro h1 v hv; rw [h1, hv]; exact ⟨rfl, rfl⟩
    · intro h1 h2 v hv; rw [h1, h2, hv]; exact ⟨rfl, rfl⟩
    · intro h1 h2 h3; rw [h1, h2, h3]; exact ⟨rfl, rfl⟩

/-- C9 witness: `"42"` is no reserved word, the integer conversion
succeeds, and both variants return the integer. -/
theorem auto_conversion_order_witness :
    auto_argx pyInt pyFloat pyJson "42" = .vint 42 ∧
    auto_charged pyInt pyFloat pyJson "42" = .vint 42 :=
  (((auto_conversion_order pyInt pyFloat pyJson "42").2.2.2
    (by decide) (by decide) (by decide)).1) (.vint 42) rfl

/-- C9 counterexample: on the input `"None"` — not a boolean word, and
rejected by the integer, float and JSON conversions — the claim predicts
the original string back, but the `argx` `auto` returns `None`. -/
theorem auto_none_counterexample :
    pyInt "None" = none ∧ pyFloat "None" = none ∧ pyJson "None" = none ∧
    ("None" ≠ "True" ∧ "None" ≠ "TRUE" ∧ "None" ≠ "true" ∧
     "None" ≠ "False" ∧ "None" ≠ "FALSE" ∧ "None" ≠ "false") ∧
    auto_argx pyInt pyFloat pyJson "None" = .vnone ∧
    Value.vnone ≠ Value.vstr "None" := by
  refine ⟨rfl, rfl, rfl,
    ⟨by decide, by decide, by decide, by decide, by decide, by decide⟩,
    rfl, ?_⟩
  intro h
  exact Value.noConfusion h

/-! ## Default-merge: the dotted walk -/

/-- C3: for a declaration with a dotted dest, the merge walks the
configuration through all but the last path segment and then the final
key; when the whole walk succeeds with value `v`, the declaration's
default is overwritten with `v` and, when `optionalize` is set, its
required flag is cleared (otherwise kept); when any segment or the final
key is absent (a `KeyError`), the declaration is returned completely
untouched and no error is raised. -/
theorem merge_dotted_default (a : ActionDecl) (conf : Conf)
    (optionalize : Bool) (hdot : a.dest.data.contains '.' = true) :
    (∀ v, walkConf conf (pySplit a.dest '.') = .ok v →
       update_action_with_conf a conf optionalize =
         .ok { a with default := confValue v,
                      required := if optionalize then false
                                  else a.required }) ∧
    (walkConf conf (pySplit a.dest '.') = .error .keyError →
       update_action_with_conf a conf optionalize = .ok a) := by
  unfold update_action_with_conf walkConf
  rw [hdot]
  simp only [Bool.true_eq_false, if_false]
  constructor
  · intro v hwalk
    rcases hpath : confGetPath conf (pySplit a.dest '.').dropLast
      with e | cf
    · rw [hpath] at hwalk; exact Except.noConfusion hwalk
    · rw [hpath] at hwalk
      dsimp only at hwalk ⊢
      rw [hwalk]
  · intro hwalk
    rcases hpath : confGetPath conf (pySplit a.dest '.').dropLast
      with e | cf
    · rw [hpath] at hwalk
      dsimp only at hwalk
      have he : e = PyExc.keyError := Except.error.inj hwalk
      subst he
      rfl
    · rw [hpath] at hwalk
      dsimp only at hwalk ⊢
      rw [hwalk]

/-- C3 witness: with configuration `{a: {b: 5}}` the declaration `a.b`
gets default `5` and required cleared; with configuration `{x: 1}` the
declaration `a.b` is left completely untouched. -/
theorem merge_dotted_default_witness :
    update_action_with_conf ⟨"a.b", .vnone, true⟩
      (Conf.cdict [("a", Conf.cdict [("b", Conf.cint 5)])]) true =
      .ok ⟨"a.b", confValue (Conf.cint 5), if true then false else true⟩ ∧
    update_action_with_conf ⟨"a.b", .vnone, true⟩
      (Conf.cdict [("x", Conf.cint 1)]) true = .ok ⟨"a.b", .vnone, true⟩ :=
  ⟨(merge_dotted_default ⟨"a.b", .vnone, true⟩
      (Conf.cdict [("a", Conf.cdict [("b", Conf.cint 5)])]) true rfl).1
      (Conf.cint 5) rfl,
   (merge_dotted_default ⟨"a.b", .vnone, true⟩
      (Conf.cdict [("x", Conf.cint 1)]) true rfl).2 rfl⟩

/-! ## Namespace-group collision -/

/-- C5: registering a namespace group under a name already used by a
registered namespace group raises the ValueError
`Namespace '<name>' already exists`, and the operation is atomic on
failure: the group list — hence the existing group — is returned
unchanged. -/
theorem add_namespace_collision (groups : List AGroup) (name : String)
    (title : Option String)
    (hex : ∃ g ∈ groups, g.isNamespace = true ∧ g.name = name) :
    add_namespace groups name title =
      (groups, .error ("Namespace '" ++ name ++ "' already exists")) := by
  unfold add_namespace
  have hany : groups.any (fun g => g.isNamespace && g.name == name) = true := by
    obtain ⟨g, hg, h1, h2⟩ := hex
    exact List.any_eq_true.mpr ⟨g, hg, by simp [h1, h2]⟩
  rw [hany]
  rfl

/-- C5 witness: adding namespace `foo` when a namespace group `foo` is
registered fails with the collision error and leaves the group list
unchanged. -/
theorem add_namespace_collision_witness :
    add_namespace [⟨true, "foo", "t", ["foo.a"]⟩] "foo" none =
      ([⟨true, "foo", "t", ["foo.a"]⟩],
        .error ("Namespace '" ++ "foo" ++ "' already exists")) :=
  add_namespace_collision [⟨true, "foo", "t", ["foo.a"]⟩] "foo" none
    ⟨⟨true, "foo", "t", ["foo.a"]⟩, by simp, rfl, rfl⟩

/-! ## Basic lemmas about the heap operations -/

namespace Heap

theorem find?_map_replace (key : String) (v : Value) :
    ∀ attrs : List (String × Value),
    (attrs.map (fun p => if p.1 == key then (key, v) else p)).find?
        (fun p => p.1 == key) =
      (attrs.find? (fun p => p.1 == key)).map (fun _ => (key, v))
  | [] => by simp
  | hd :: tl => by
    by_cases hk : hd.1 == key
    · simp [List.find?, hk]
    · simp only [List.map_cons, hk, if_neg, List.find?, Bool.not_eq_true]
      exact find?_map_replace key v tl

theorem find?_setEntry_self (attrs : List (String × Value)) (key : String)
    (v : Value) :
    (setEntry attrs key v).find? (fun p => p.1 == key) = some (key, v) := by
  unfold setEntry
  split
  · rename_i hany
    rw [find?_map_replace]
    rcases hfind : attrs.find? (fun p => p.1 == key) with _ | p
    · rw [List.find?_eq_none] at hfind
      obtain ⟨p, hp, hkp⟩ := List.any_eq_true.mp hany
      exact absurd hkp (by simp [hfind p hp])
    · rw [hfind]; rfl
  · rename_i hany
    rw [List.find?_append]
    have hnone : attrs.find? (fun p => p.1 == key) = none := by
      rw [List.find?_eq_none]
      intro p hp hkp
      exact hany (List.any_eq_true.mpr ⟨p, hp, hkp⟩)
    simp [hnone, List.find?]

theorem find?_map_replace_ne (key key' : String) (v : Value)
    (hne : key' ≠ key) :
    ∀ attrs : List (String × Value),
    (attrs.map (fun p => if p.1 == key then (key, v) else p)).find?
        (fun p => p.1 == key') =
      attrs.find? (fun p => p.1 == key')
  | [] => by simp
  | hd :: tl => by
    have h2 : (key == key') = false := by
      simp only [beq_eq_false_iff_ne, ne_eq]
      exact fun h => hne h.symm
    by_cases hk : hd.1 == key
    · have h1 : hd.1 = key := eq_of_beq hk
      have h3 : (hd.1 == key') = false := by rw [h1]; exact h2
      simp only [List.map_cons, hk, if_pos, List.find?, h2, h3]
      exact find?_map_replace_ne key key' v hne tl
    · simp only [List.map_cons, hk, if_neg, List.find?, Bool.not_eq_true]
      by_cases hk' : hd.1 == key'
      · simp [hk']
      · simp only [hk']
        exact find?_map_replace_ne key key' v hne tl

theorem find?_setEntry_ne (attrs : List (String × Value)) (key key' : String)
    (v : Value) (hne : key' ≠ key) :
    (setEntry attrs key v).find? (fun p => p.1 == key') =
      attrs.find? (fun p => p.1 == key') := by
  unfold setEntry
  split
  · exact find?_map_replace_ne key key' v hne attrs
  · rw [List.find?_append]
    rcases hfind : attrs.find? (fun p => p.1 == key') with _ | p
    · have h2 : (key == key') = false := by
        simp only [beq_eq_false_iff_ne, ne_eq]
        exact fun h => hne h.symm
      simp [hfind, List.find?, h2]
    · simp [hfind]

theorem length_setAttr (h : Heap) (r : Nat) (key : String) (v : Value) :
    (h.setAttr r key v).nsCells.length = h.nsCells.length := by
  unfold setAttr
  split <;> simp

theorem listCells_setAttr (h : Heap) (r : Nat) (key : String) (v : Value) :
    (h.setAttr r key v).listCells = h.listCells := rfl

theorem nsCells_allocList (h : Heap) (xs : List Value) :
    (h.allocList xs).1.nsCells = h.nsCells := rfl

theorem getAttr_allocList (h : Heap) (xs : List Value) (r : Nat)
    (key : String) :
    (h.allocList xs).1.getAttr r key = h.getAttr r key := rfl

theorem nsCells_listAppend (h : Heap) (r : Nat) (v : Value) :
    (h.listAppend r v).nsCells = h.nsCells := rfl

theorem nsCells_listExtend (h : Heap) (r : Nat) (vs : List Value) :
    (h.listExtend r vs).nsCells = h.nsCells := rfl

theorem getAttr_listAppend (h : Heap) (r : Nat) (v : Value) (r' : Nat)
    (key : String) :
    (h.listAppend r v).getAttr r' key = h.getAttr r' key := rfl

theorem getAttr_listExtend (h : Heap) (r : Nat) (vs : List Value) (r' : Nat)
    (key : String) :
    (h.listExtend r vs).getAttr r' key = h.getAttr r' key := rfl

theorem getAttr_setAttr_self (h : Heap) (r : Nat) (key : String) (v : Value)
    (hr : r < h.nsCells.length) :
    (h.setAttr r key v).getAttr r key = some v := by
  unfold setAttr getAttr
  rcases hcell : h.nsCells[r]? with _ | attrs
  · rw [List.getElem?_eq_none_iff] at hcell; omega
  · simp only [hcell, List.getElem?_set_self hr, find?_setEntry_self,
      Option.map_some']

theorem getAttr_setAttr_of_ne (h : Heap) (r : Nat) (key : String) (v : Value)
    (r' : Nat) (key' : String) (hne : r' ≠ r ∨ key' ≠ key) :
    (h.setAttr r key v).getAttr r' key' = h.getAttr r' key' := by
  unfold setAttr getAttr
  rcases hcell : h.nsCells[r]? with _ | attrs
  · simp [hcell]
  · rcases hne with hne | hne
    · simp [List.getElem?_set_ne (fun h => hne h.symm)]
    · by_cases hrr : r' = r
      · subst hrr
        have hr : r' < h.nsCells.length := by
          by_contra hc
          rw [List.getElem?_eq_none_iff.mpr (by omega)] at hcell
          exact Option.noConfusion hcell
        simp only [List.getElem?_set_self hr, hcell,
          find?_setEntry_ne attrs key key' v hne]
      · simp [List.getElem?_set_ne (fun h => hrr h.symm)]

theorem getAttr_allocNs (h : Heap) (r : Nat) (key : String) :
    (h.allocNs).1.getAttr r key = h.getAttr r key := by
  unfold allocNs getAttr
  rcases Nat.lt_trichotomy r h.nsCells.length with hr | hr | hr
  · simp [List.getElem?_append_left hr]
  · subst hr
    simp [List.getElem?_concat_length,
      List.getElem?_eq_none_iff.mpr (le_refl _), List.find?]
  · have h1 : (h.nsCells ++ [[]])[r]? = (none : Option (List (String × Value))) := by
      rw [List.getElem?_eq_none_iff]
      simp; omega
    have h2 : h.nsCells[r]? = (none : Option (List (String × Value))) := by
      rw [List.getElem?_eq_none_iff]; omega
    simp [h1, h2]

theorem length_allocNs (h : Heap) :
    (h.allocNs).1.nsCells.length = h.nsCells.length + 1 := by
  unfold allocNs; simp

theorem listCells_allocNs (h : Heap) :
    (h.allocNs).1.listCells = h.listCells := rfl

theorem Extends.refl (h : Heap) : h.Extends h := fun _ _ _ hv _ => hv

theorem Extends.trans {h1 h2 h3 : Heap} (h32 : h3.Extends h2)
    (h21 : h2.Extends h1) : h3.Extends h1 :=
  fun r key v hv hne => h32 r key v (h21 r key v hv hne) hne

theorem setEntry_mem {attrs : List (String × Value)} {key : String}
    {v : Value} {p : String × Value} (hp : p ∈ setEntry attrs key v) :
    p ∈ attrs ∨ p = (key, v) := by
  unfold setEntry at hp
  split at hp
  · obtain ⟨q, hq, hpq⟩ := List.mem_map.mp hp
    by_cases hk : q.1 == key
    · right; rw [← hpq]; simp [hk]
    · left; rw [← hpq]; simpa [hk] using hq
  · rcases List.mem_append.mp hp with h | h
    · left; exact h
    · right; simpa using h

theorem valueNsOk_mono {n m : Nat} (hnm : n ≤ m) {v : Value}
    (hv : valueNsOk n v = true) : valueNsOk m v = true := by
  cases v <;> simp_all [valueNsOk] <;> omega

theorem wfNs_allocNs {h : Heap} (hwf : h.wfNs = true) :
    (h.allocNs).1.wfNs = true := by
  unfold wfNs allocNs at *
  simp only [List.all_eq_true] at *
  intro cell hcell p hp
  simp only [List.mem_append, List.mem_singleton] at hcell
  rcases hcell with hcell | hcell
  · exact valueNsOk_mono (by simp) (hwf cell hcell p hp)
  · subst hcell; simp at hp

theorem wfNs_setAttr {h : Heap} (hwf : h.wfNs = true) (r : Nat) (key : String)
    {v : Value} (hv : valueNsOk h.nsCells.length v = true) :
    (h.setAttr r key v).wfNs = true := by
  unfold wfNs setAttr at *
  simp only [List.all_eq_true] at *
  rcases hcell : h.nsCells[r]? with _ | attrs
  · simp only [hcell]
    exact hwf
  · simp only [hcell, List.length_set]
    intro cell hc p hp
    rcases List.mem_or_eq_of_mem_set hc with hc | hc
    · exact hwf cell hc p hp
    · subst hc
      rcases setEntry_mem hp with hp | hp
      · exact hwf attrs (List.getElem?_mem hcell) p hp
      · subst hp; exact hv

theorem getAttr_wf {h : Heap} (hwf : h.wfNs = true) {r : Nat} {key : String}
    {v : Value} (hv : h.getAttr r key = some v) :
    valueNsOk h.nsCells.length v = true := by
  unfold getAttr at hv
  split at hv
  · rename_i attrs hcell
    rcases hfind : attrs.find? (fun p => p.1 == key) with _ | p
    · rw [hfind] at hv; exact Option.noConfusion hv
    · rw [hfind] at hv
      have hpv : p.2 = v := by simpa using hv
      have hpmem : p ∈ attrs := List.mem_of_find?_eq_some hfind
      unfold wfNs at hwf
      simp only [List.all_eq_true] at hwf
      rw [← hpv]
      exact hwf attrs (List.getElem?_mem hcell) p hpmem
  · exact Option.noConfusion hv

theorem extends_allocNs (h : Heap) : (h.allocNs).1.Extends h :=
  fun r key v hv _ => by rw [getAttr_allocNs]; exact hv

theorem extends_setAttr_vacant {h : Heap} {r : Nat} {key : String}
    (v : Value)
    (hvac : h.getAttr r key = none ∨ h.getAttr r key = some .vnone) :
    (h.setAttr r key v).Extends h := by
  intro r' key' v' hv' hne
  by_cases hsame : r' = r ∧ key' = key
  · obtain ⟨h1, h2⟩ := hsame; subst h1; subst h2
    rcases hvac with hvac | hvac
    · rw [hvac] at hv'; exact Option.noConfusion hv'
    · rw [hvac] at hv'
      exact absurd (Option.some.inj hv').symm hne
  · rw [getAttr_setAttr_of_ne]
    · exact hv'
    · rcases not_and_or.mp hsame with hs | hs
      · left; exact hs
      · right; exact hs

end Heap

theorem resolveSteps_nil (h : Heap) (cur : Value) :
    resolveSteps h cur [] = .ok (h, cur) := rfl

theorem resolveSteps_ok_nil {h : Heap} {cur : Value} {h' : Heap}
    {cur' : Value} (hres : resolveSteps h cur [] = .ok (h', cur')) :
    h' = h ∧ cur' = cur := by
  rw [resolveSteps_nil] at hres
  obtain ⟨h1, h2⟩ := Prod.mk.injEq .. ▸ Except.ok.inj hres
  exact ⟨h1.symm, h2.symm⟩

theorem resolveSteps_length_mono :
    ∀ (keys : List String) (h : Heap) (cur : Value) (h' : Heap) (cur' : Value),
    resolveSteps h cur keys = .ok (h', cur') →
    h.nsCells.length ≤ h'.nsCells.length := by
  intro keys
  induction keys with
  | nil =>
    intro h cur h' cur' hres
    obtain ⟨h1, -⟩ := resolveSteps_ok_nil hres
    subst h1; exact le_refl _
  | cons key rest ih =>
    intro h cur h' cur' hres
    simp only [resolveSteps] at hres
    split at hres
    · split at hres
      · have := ih _ _ _ _ hres
        rw [Heap.length_setAttr, Heap.length_allocNs] at this
        omega
      · exact ih _ _ _ _ hres
    · exact Except.noConfusion hres

/-- Main invariant of the resolver walk: starting from a well-formed heap
and an in-range namespace reference, a successful walk preserves
well-formedness, only extends the heap (never overwriting a non-`None`
attribute and never touching list objects), and is *stable*: replaying the
same walk on any extension of the resulting heap — in particular on the
resulting heap itself — changes nothing and yields the same final node. -/
theorem resolveSteps_main :
    ∀ (keys : List String) (h : Heap) (cur : Value) (h' : Heap) (cur' : Value),
    h.wfNs = true → valueNsOk h.nsCells.length cur = true →
    resolveSteps h cur keys = .ok (h', cur') →
    h'.wfNs = true ∧ valueNsOk h'.nsCells.length cur' = true ∧
      h'.Extends h ∧ h'.listCells = h.listCells ∧
      (∀ g : Heap, g.Extends h' → resolveSteps g cur keys = .ok (g, cur')) := by
  intro keys
  induction keys with
  | nil =>
    intro h cur h' cur' hwf hok hres
    obtain ⟨h1, h2⟩ := resolveSteps_ok_nil hres
    subst h1; subst h2
    exact ⟨hwf, hok, Heap.Extends.refl _, rfl, fun g _ => rfl⟩
  | cons key rest ih =>
    intro h cur h' cur' hwf hok hres
    simp only [resolveSteps] at hres
    split at hres
    · rename_i r
      have hr : r < h.nsCells.length := by
        simpa [valueNsOk] using hok
      split at hres
      · rename_i hnone
        have hlen2 : (h.allocNs.1.setAttr r key
            (.vnsref h.allocNs.2)).nsCells.length = h.nsCells.length + 1 := by
          rw [Heap.length_setAttr, Heap.length_allocNs]
        have hwf2 : (h.allocNs.1.setAttr r key
            (.vnsref h.allocNs.2)).wfNs = true := by
          apply Heap.wfNs_setAttr (Heap.wfNs_allocNs hwf)
          rw [Heap.length_allocNs]
          simp [valueNsOk, Heap.allocNs]
        have hok2 : valueNsOk (h.allocNs.1.setAttr r key
            (.vnsref h.allocNs.2)).nsCells.length
            (.vnsref h.allocNs.2) = true := by
          rw [hlen2]
          simp [valueNsOk, Heap.allocNs]
        have hvac : h.allocNs.1.getAttr r key = none ∨
            h.allocNs.1.getAttr r key = some .vnone := by
          rw [Heap.getAttr_allocNs]
          rcases hattr : h.getAttr r key with _ | v
          · left; rfl
          · right
            rw [hattr] at hnone
            cases v <;> simp [Value.isNone] at hnone ⊢
        have hext2 : (h.allocNs.1.setAttr r key
            (.vnsref h.allocNs.2)).Extends h :=
          (Heap.extends_setAttr_vacant _ hvac).trans (Heap.extends_allocNs h)
        have hlc2 : (h.allocNs.1.setAttr r key
            (.vnsref h.allocNs.2)).listCells = h.listCells := by
          rw [Heap.listCells_setAttr, Heap.listCells_allocNs]
        obtain ⟨hwf', hok', hext', hlc', hstab⟩ := ih _ _ h' cur' hwf2 hok2 hres
        refine ⟨hwf', hok', hext'.trans hext2, by rw [hlc', hlc2], ?_⟩
        intro g hg
        have hget2 : (h.allocNs.1.setAttr r key
            (.vnsref h.allocNs.2)).getAttr r key =
            some (.vnsref h.allocNs.2) := by
          apply Heap.getAttr_setAttr_self
          rw [Heap.length_allocNs]; omega
        have hgetg : g.getAttr r key = some (.vnsref h.allocNs.2) :=
          (hg.trans hext') r key _ hget2 (fun hc => Value.noConfusion hc)
        simp only [resolveSteps, hgetg, Option.getD_some, Value.isNone,
          Bool.false_eq_true, if_false]
        exact hstab g hg
      · rename_i hfalse
        rcases hattr : h.getAttr r key with _ | v
        · rw [hattr] at hfalse; simp [Value.isNone] at hfalse
        · rw [hattr] at hres hfalse
          simp only [Option.getD_some] at hres hfalse
          have hvok : valueNsOk h.nsCells.length v = true :=
            Heap.getAttr_wf hwf hattr
          obtain ⟨hwf', hok', hext', hlc', hstab⟩ := ih h v h' cur' hwf hvok hres
          have hvne : v ≠ .vnone := by
            intro hv; subst hv; simp [Value.isNone] at hfalse
          refine ⟨hwf', hok', hext', hlc', ?_⟩
          intro g hg
          have hgetg : g.getAttr r key = some v :=
            (hg.trans hext') r key _ hattr hvne
          simp only [resolveSteps, hgetg, Option.getD_some, hfalse,
            Bool.false_eq_true, if_false]
          exact hstab g hg
    · exact Except.noConfusion hres

/-- A successful walk over `ks1 ++ ks2` decomposes into a walk over `ks1`
followed by a walk over `ks2`. -/
theorem resolveSteps_append :
    ∀ (ks1 ks2 : List String) (h : Heap) (cur : Value) (h' : Heap)
      (cur' : Value),
    resolveSteps h cur (ks1 ++ ks2) = .ok (h', cur') →
    ∃ hm curm, resolveSteps h cur ks1 = .ok (hm, curm) ∧
      resolveSteps hm curm ks2 = .ok (h', cur') := by
  intro ks1
  induction ks1 with
  | nil =>
    intro ks2 h cur h' cur' hres
    exact ⟨h, cur, rfl, hres⟩
  | cons key rest ih =>
    intro ks2 h cur h' cur' hres
    cases cur
    case vnsref r =>
      simp only [List.cons_append, resolveSteps] at hres ⊢
      by_cases hnone : ((h.getAttr r key).getD .vnone).isNone = true
      · rw [if_pos hnone] at hres
        obtain ⟨hm, curm, hA, hB⟩ := ih ks2 _ _ h' cur' hres
        exact ⟨hm, curm, by rw [if_pos hnone]; exact hA, hB⟩
      · rw [if_neg hnone] at hres
        obtain ⟨hm, curm, hA, hB⟩ := ih ks2 _ _ h' cur' hres
        exact ⟨hm, curm, by rw [if_neg hnone]; exact hA, hB⟩
    all_goals
      simp only [List.cons_append, resolveSteps] at hres
      exact Except.noConfusion hres

theorem readPath_nil (h : Heap) (cur : Value) :
    readPath h cur [] = some cur := by
  cases cur <;> rfl

/-- A walk that leaves the heap unchanged is a pure read: the visited
nodes can be read back with `readPath` and (for a nonempty walk) the final
node is not `None`. -/
theorem resolveSteps_fixed_read :
    ∀ (keys : List String) (h : Heap) (cur cur' : Value),
    resolveSteps h cur keys = .ok (h, cur') →
    readPath h cur keys = some cur' ∧ (keys ≠ [] → cur' ≠ .vnone) := by
  intro keys
  induction keys with
  | nil =>
    intro h cur cur' hres
    obtain ⟨-, h2⟩ := resolveSteps_ok_nil hres
    subst h2
    exact ⟨readPath_nil h cur', fun hne => absurd rfl hne⟩
  | cons key rest ih =>
    intro h cur cur' hres
    cases cur
    case vnsref r =>
      simp only [resolveSteps] at hres
      split at hres
      · have hmono := resolveSteps_length_mono rest _ _ _ _ hres
        rw [Heap.length_setAttr, Heap.length_allocNs] at hmono
        omega
      · rename_i hfalse
        rcases hattr : h.getAttr r key with _ | v
        · rw [hattr] at hfalse; simp [Value.isNone] at hfalse
        · rw [hattr] at hres hfalse
          simp only [Option.getD_some] at hres hfalse
          rcases hrest : rest with _ | ⟨k2, rest2⟩
          · subst hrest
            obtain ⟨-, hc⟩ := resolveSteps_ok_nil hres
            subst hc
            refine ⟨by simp [readPath, hattr], fun _ hv => ?_⟩
            subst hv; simp [Value.isNone] at hfalse
          · subst hrest
            obtain ⟨hread, hne⟩ := ih h v cur' hres
            exact ⟨by simp [readPath, hattr, hread],
              fun _ => hne (by simp)⟩
    all_goals
      simp only [resolveSteps] at hres
      exact Except.noConfusion hres

/-- The no-dot fast path of `get_ns_dest`. -/
theorem get_ns_dest_nodot {h : Heap} {root : Nat} {dest : String}
    (hdot : dest.data.contains '.' = false) :
    get_ns_dest h root dest = .ok (h, .vnsref root, dest) := by
  unfold get_ns_dest
  rw [hdot]
  rfl

/-- The dotted path of `get_ns_dest`, expressed through the walk. -/
theorem get_ns_dest_dot {h : Heap} {root : Nat} {dest : String}
    (hdot : dest.data.contains '.' = true) :
    get_ns_dest h root dest =
      match resolveSteps h (.vnsref root) (pySplit dest '.').dropLast with
      | .ok (h1, ns) => .ok (h1, ns, (pySplit dest '.').getLastD "")
      | .error e => .error e := by
  unfold get_ns_dest
  rw [hdot]
  rfl

/-- C2: the dotted-path resolver is idempotent in node creation.  After a
successful resolution of `dest`, resolving `dest` again on the resulting
namespace returns exactly the same heap (no node is created twice) and
the same container node and key; replaying the walk over any prefix of
the resolved segment list likewise changes nothing, so the intermediate
nodes of a prefix are reused rather than duplicated.  A destination with
no dot returns the root itself and the whole string as key, creating
nothing. -/
theorem get_ns_dest_idempotent (h : Heap) (root : Nat) (dest : String)
    (h1 : Heap) (ns : Value) (key : String)
    (hwf : h.wfNs = true) (hroot : root < h.nsCells.length)
    (hres : get_ns_dest h root dest = .ok (h1, ns, key)) :
    get_ns_dest h1 root dest = .ok (h1, ns, key) ∧
    (∀ ks rest2, dest.data.contains '.' = true →
       (pySplit dest '.').dropLast = ks ++ rest2 →
       ∃ c, resolveSteps h1 (.vnsref root) ks = .ok (h1, c)) ∧
    (dest.data.contains '.' = false →
      h1 = h ∧ ns = .vnsref root ∧ key = dest) := by
  have hrootok : valueNsOk h.nsCells.length (.vnsref root) = true := by
    simpa [valueNsOk] using hroot
  by_cases hdot : dest.data.contains '.' = false
  · rw [get_ns_dest_nodot hdot] at hres
    simp only [Except.ok.injEq, Prod.mk.injEq] at hres
    obtain ⟨hh, hns, hk⟩ := hres
    subst hh; subst hns; subst hk
    refine ⟨get_ns_dest_nodot hdot, ?_, fun _ => ⟨rfl, rfl, rfl⟩⟩
    intro ks rest2 hdot' _
    rw [hdot'] at hdot
    exact Bool.noConfusion hdot
  · have hdot' : dest.data.contains '.' = true := by
      rcases hb : dest.data.contains '.' with _ | _
      · exact absurd hb hdot
      · rfl
    rw [get_ns_dest_dot hdot'] at hres
    rcases hsteps : resolveSteps h (.vnsref root) (pySplit dest '.').dropLast
      with e | ⟨hm, curm⟩
    · rw [hsteps] at hres; exact Except.noConfusion hres
    · rw [hsteps] at hres
      simp only [Except.ok.injEq, Prod.mk.injEq] at hres
      obtain ⟨hh, hns, hk⟩ := hres
      subst hh; subst hns; subst hk
      obtain ⟨hwf', hok', hext', -, hstab⟩ :=
        resolveSteps_main _ h _ _ _ hwf hrootok hsteps
      refine ⟨?_, ?_,
        fun hfd => absurd hdot' (by rw [hfd]; exact fun h => Bool.noConfusion h)⟩
      · rw [get_ns_dest_dot hdot', hstab _ (Heap.Extends.refl _)]
      · intro ks rest2 _ hsplit
        rw [hsplit] at hsteps
        obtain ⟨hm2, curm2, hA, hB⟩ :=
          resolveSteps_append ks rest2 _ _ _ _ hsteps
        obtain ⟨hwfA, hokA, hextA, -, hstabA⟩ :=
          resolveSteps_main ks h _ _ _ hwf hrootok hA
        obtain ⟨-, -, hextB, -, -⟩ :=
          resolveSteps_main rest2 hm2 _ _ _ hwfA hokA hB
        exact ⟨curm2, hstabA _ hextB⟩

/-- C2 witness: resolving `"a.b.c"` on a single empty root namespace and
then resolving it again on the result is a no-op that returns the same
intermediate node. -/
theorem get_ns_dest_idempotent_witness :
    get_ns_dest ⟨[[("a", .vnsref 1)], [("b", .vnsref 2)], []], []⟩ 0 "a.b.c" =
      .ok (⟨[[("a", .vnsref 1)], [("b", .vnsref 2)], []], []⟩,
        .vnsref 2, "c") :=
  (get_ns_dest_idempotent ⟨[[]], []⟩ 0 "a.b.c"
    ⟨[[("a", .vnsref 1)], [("b", .vnsref 2)], []], []⟩ (.vnsref 2) "c"
    rfl (by decide) rfl).1

/-- C10: an intermediate attribute holding `None` is treated exactly like
a missing attribute — in both cases the resolver attaches a fresh empty
namespace over it and continues with that fresh node — and after a
successful dotted resolution every intermediate position on the resolved
path reads back as a non-`None` value. -/
theorem resolver_none_as_missing :
    (∀ (h : Heap) (r : Nat) (key : String) (rest : List String),
       h.getAttr r key = some .vnone →
       resolveSteps h (.vnsref r) (key :: rest) =
         resolveSteps (h.allocNs.1.setAttr r key (.vnsref h.allocNs.2))
           (.vnsref h.allocNs.2) rest) ∧
    (∀ (h : Heap) (r : Nat) (key : String) (rest : List String),
       h.getAttr r key = none →
       resolveSteps h (.vnsref r) (key :: rest) =
         resolveSteps (h.allocNs.1.setAttr r key (.vnsref h.allocNs.2))
           (.vnsref h.allocNs.2) rest) ∧
    (∀ (h : Heap) (root : Nat) (dest : String) (h1 : Heap) (ns : Value)
       (k : String), h.wfNs = true → root < h.nsCells.length →
       dest.data.contains '.' = true →
       get_ns_dest h root dest = .ok (h1, ns, k) →
       ∀ ks k2 rest2, (pySplit dest '.').dropLast = ks ++ k2 :: rest2 →
         ∃ v, readPath h1 (.vnsref root) (ks ++ [k2]) = some v ∧
           v ≠ .vnone) := by
  refine ⟨?_, ?_, ?_⟩
  · intro h r key rest hattr
    simp [resolveSteps, hattr, Value.isNone]
  · intro h r key rest hattr
    simp [resolveSteps, hattr, Value.isNone]
  · intro h root dest h1 ns k hwf hroot hdot hres ks k2 rest2 hsplit
    have hrootok : valueNsOk h.nsCells.length (.vnsref root) = true := by
      simpa [valueNsOk] using hroot
    rw [get_ns_dest_dot hdot] at hres
    rcases hsteps : resolveSteps h (.vnsref root) (pySplit dest '.').dropLast
      with e | ⟨hm, curm⟩
    · rw [hsteps] at hres; exact Except.noConfusion hres
    · rw [hsteps] at hres
      simp only [Except.ok.injEq, Prod.mk.injEq] at hres
      obtain ⟨hh, -, -⟩ := hres
      subst hh
      have hassoc : ks ++ k2 :: rest2 = (ks ++ [k2]) ++ rest2 := by simp
      rw [hsplit, hassoc] at hsteps
      obtain ⟨hm2, curm2, hA, hB⟩ :=
        resolveSteps_append (ks ++ [k2]) rest2 _ _ _ _ hsteps
      obtain ⟨hwfA, hokA, hextA, -, hstabA⟩ :=
        resolveSteps_main (ks ++ [k2]) h _ _ _ hwf hrootok hA
      obtain ⟨-, -, hextB, -, -⟩ :=
        resolveSteps_main rest2 hm2 _ _ _ hwfA hokA hB
      have hfixed := hstabA _ hextB
      obtain ⟨hread, hne⟩ := resolveSteps_fixed_read (ks ++ [k2]) _ _ _ hfixed
      exact ⟨curm2, hread, hne (by simp)⟩

/-! ## Lemmas about list objects, and the clear-append / clear-extend
accumulation behaviour -/

theorem getListD_allocList_new (h : Heap) (xs : List Value) :
    (h.allocList xs).1.getListD h.listCells.length = xs := by
  unfold Heap.allocList Heap.getListD
  simp [List.getElem?_concat_length]

theorem getListD_allocList_old (h : Heap) (xs : List Value) (r : Nat)
    (hr : r < h.listCells.length) :
    (h.allocList xs).1.getListD r = h.getListD r := by
  unfold Heap.allocList Heap.getListD
  simp [List.getElem?_append_left hr]

theorem length_listCells_allocList (h : Heap) (xs : List Value) :
    (h.allocList xs).1.listCells.length = h.listCells.length + 1 := by
  unfold Heap.allocList; simp

theorem getListD_listAppend_self (h : Heap) (r : Nat) (v : Value)
    (hr : r < h.listCells.length) :
    (h.listAppend r v).getListD r = h.getListD r ++ [v] := by
  unfold Heap.listAppend Heap.getListD
  simp [List.getElem?_set_self hr]

theorem getListD_listExtend_self (h : Heap) (r : Nat) (vs : List Value)
    (hr : r < h.listCells.length) :
    (h.listExtend r vs).getListD r = h.getListD r ++ vs := by
  unfold Heap.listExtend Heap.getListD
  simp [List.getElem?_set_self hr]

theorem length_listCells_listAppend (h : Heap) (r : Nat) (v : Value) :
    (h.listAppend r v).listCells.length = h.listCells.length := by
  unfold Heap.listAppend; simp

theorem length_listCells_listExtend (h : Heap) (r : Nat) (vs : List Value) :
    (h.listExtend r vs).listCells.length = h.listCells.length := by
  unfold Heap.listExtend; simp

theorem getListD_setAttr (h : Heap) (r : Nat) (key : String) (v : Value)
    (r' : Nat) : (h.setAttr r key v).getListD r' = h.getListD r' := rfl

/-- `getAttr` reads only the namespace cells. -/
theorem getAttr_congr {g h : Heap} (hns : g.nsCells = h.nsCells)
    (r : Nat) (k : String) : g.getAttr r k = h.getAttr r k := by
  unfold Heap.getAttr
  rw [hns]

/-- `setAttr` writes only the namespace cells. -/
theorem setAttr_nsCells_congr {g h : Heap} (hns : g.nsCells = h.nsCells)
    (r : Nat) (k : String) (v : Value) :
    (g.setAttr r k v).nsCells = (h.setAttr r k v).nsCells := by
  unfold Heap.setAttr
  rw [hns]

/-- A heap-fixed walk only depends on the namespace cells, so it replays
identically on any heap with the same namespace cells. -/
theorem resolveSteps_stable_transfer :
    ∀ (keys : List String) (h g : Heap) (cur cur' : Value),
    g.nsCells = h.nsCells →
    resolveSteps h cur keys = .ok (h, cur') →
    resolveSteps g cur keys = .ok (g, cur') := by
  intro keys
  induction keys with
  | nil =>
    intro h g cur cur' hns hres
    obtain ⟨-, hc⟩ := resolveSteps_ok_nil hres
    subst hc
    rfl
  | cons key rest ih =>
    intro h g cur cur' hns hres
    cases cur
    case vnsref r =>
      simp only [resolveSteps] at hres ⊢
      split at hres
      · have hmono := resolveSteps_length_mono rest _ _ _ _ hres
        rw [Heap.length_setAttr, Heap.length_allocNs] at hmono
        omega
      · rename_i hfalse
        rcases hattr : h.getAttr r key with _ | v
        · rw [hattr] at hfalse; simp [Value.isNone] at hfalse
        · rw [hattr] at hres hfalse
          simp only [Option.getD_some] at hres hfalse
          rw [getAttr_congr hns, hattr]
          simp only [Option.getD_some, hfalse, Bool.false_eq_true, if_false]
          exact ih h g v cur' hns hres
    all_goals
      simp only [resolveSteps] at hres
      exact Except.noConfusion hres

/-- A value that is not a namespace reference aborts a nonempty walk. -/
theorem resolveSteps_cons_non_ns (h : Heap) (v : Value) (key : String)
    (rest : List String) (hv : ∀ r, v ≠ .vnsref r) :
    resolveSteps h v (key :: rest) = .error .attributeError := by
  cases v
  case vnsref r => exact absurd rfl (hv r)
  all_goals rfl

/-- Overwriting the final attribute position `(rr, k0)` does not disturb
a heap-fixed walk that ends at the namespace object `rr`, provided the
old value stored there is not itself a namespace reference: such a value
can never be an intermediate node of the walk, and reading it as the
final node would contradict the walk ending at `rr`. -/
theorem resolveSteps_stable_setAttr_leaf :
    ∀ (keys : List String) (h : Heap) (cur : Value) (rr : Nat)
      (k0 : String) (w : Value),
    resolveSteps h cur keys = .ok (h, .vnsref rr) →
    (∀ r', h.getAttr rr k0 ≠ some (.vnsref r')) →
    resolveSteps (h.setAttr rr k0 w) cur keys =
      .ok (h.setAttr rr k0 w, .vnsref rr) := by
  intro keys
  induction keys with
  | nil =>
    intro h cur rr k0 w hres hleaf
    obtain ⟨-, hc⟩ := resolveSteps_ok_nil hres
    subst hc
    rfl
  | cons key rest ih =>
    intro h cur rr k0 w hres hleaf
    cases cur
    case vnsref r =>
      simp only [resolveSteps] at hres ⊢
      split at hres
      · have hmono := resolveSteps_length_mono rest _ _ _ _ hres
        rw [Heap.length_setAttr, Heap.length_allocNs] at hmono
        omega
      · rename_i hfalse
        rcases hattr : h.getAttr r key with _ | v
        · rw [hattr] at hfalse; simp [Value.isNone] at hfalse
        · rw [hattr] at hres hfalse
          simp only [Option.getD_some] at hres hfalse
          by_cases hsame : r = rr ∧ key = k0
          · exfalso
            obtain ⟨hr, hk⟩ := hsame
            subst hr; subst hk
            have hvns : ∀ r', v ≠ .vnsref r' := by
              intro r' hv
              subst hv
              exact hleaf r' hattr
            rcases rest with _ | ⟨k2, rest2⟩
            · obtain ⟨-, hc⟩ := resolveSteps_ok_nil hres
              exact hvns _ hc.symm
            · rw [resolveSteps_cons_non_ns h v k2 rest2 hvns] at hres
              exact Except.noConfusion hres
          · have hne : r ≠ rr ∨ key ≠ k0 := by
              rcases not_and_or.mp hsame with hx | hx
              · exact Or.inl hx
              · exact Or.inr hx
            rw [Heap.getAttr_setAttr_of_ne h rr k0 w r key hne, hattr]
            simp only [Option.getD_some, hfalse, Bool.false_eq_true, if_false]
            exact ih h v rr k0 w hres hleaf
    all_goals
      simp only [resolveSteps] at hres
      exact Except.noConfusion hres

/-- A stable resolution survives overwriting its own leaf attribute (on
any heap sharing the namespace cells of the overwritten heap). -/
theorem get_ns_dest_stable_set (h : Heap) (root rr : Nat)
    (dest lastKey : String) (w : Value) (h2 : Heap)
    (hres : get_ns_dest h root dest = .ok (h, .vnsref rr, lastKey))
    (hleaf : ∀ r', h.getAttr rr lastKey ≠ some (.vnsref r'))
    (hns : h2.nsCells = (h.setAttr rr lastKey w).nsCells) :
    get_ns_dest h2 root dest = .ok (h2, .vnsref rr, lastKey) := by
  by_cases hdot : dest.data.contains '.' = false
  · rw [get_ns_dest_nodot hdot] at hres
    simp only [Except.ok.injEq, Prod.mk.injEq, Value.vnsref.injEq] at hres
    obtain ⟨-, hrr, hk⟩ := hres
    rw [get_ns_dest_nodot hdot, hrr, hk]
  · have hdot' : dest.data.contains '.' = true := by
      rcases hb : dest.data.contains '.' with _ | _
      · exact absurd hb hdot
      · rfl
    rw [get_ns_dest_dot hdot'] at hres
    rcases hsteps : resolveSteps h (.vnsref root) (pySplit dest '.').dropLast
      with e | ⟨hm, curm⟩
    · rw [hsteps] at hres; exact Except.noConfusion hres
    · rw [hsteps] at hres
      simp only [Except.ok.injEq, Prod.mk.injEq] at hres
      obtain ⟨hh, hcur, hk⟩ := hres
      rw [hh, hcur] at hsteps
      have hset := resolveSteps_stable_setAttr_leaf _ h (.vnsref root) rr
        lastKey w hsteps hleaf
      have htrans := resolveSteps_stable_transfer _ (h.setAttr rr lastKey w)
        h2 (.vnsref root) (.vnsref rr) hns hset
      rw [get_ns_dest_dot hdot', htrans, hk]

/-- After any successful resolution, replaying `get_ns_dest` on the
resulting heap is the identity, and a namespace container is in range. -/
theorem get_ns_dest_post (h h1 : Heap) (root rr : Nat)
    (dest lastKey : String) (hwf : h.wfNs = true)
    (hroot : root < h.nsCells.length)
    (hres1 : get_ns_dest h root dest = .ok (h1, .vnsref rr, lastKey)) :
    get_ns_dest h1 root dest = .ok (h1, .vnsref rr, lastKey) ∧
    rr < h1.nsCells.length := by
  by_cases hdot : dest.data.contains '.' = false
  · rw [get_ns_dest_nodot hdot] at hres1
    simp only [Except.ok.injEq, Prod.mk.injEq, Value.vnsref.injEq] at hres1
    obtain ⟨hh, hrr, hk⟩ := hres1
    subst hh
    rw [get_ns_dest_nodot hdot, hrr, hk]
    exact ⟨rfl, by rw [← hrr]; exact hroot⟩
  · have hdot' : dest.data.contains '.' = true := by
      rcases hb : dest.data.contains '.' with _ | _
      · exact absurd hb hdot
      · rfl
    rw [get_ns_dest_dot hdot'] at hres1
    rcases hsteps : resolveSteps h (.vnsref root) (pySplit dest '.').dropLast
      with e | ⟨hm, curm⟩
    · rw [hsteps] at hres1; exact Except.noConfusion hres1
    · rw [hsteps] at hres1
      simp only [Except.ok.injEq, Prod.mk.injEq] at hres1
      obtain ⟨hh, hcur, hk⟩ := hres1
      subst hh; subst hcur
      obtain ⟨-, hok', -, -, hstab⟩ := resolveSteps_main _ h _ _ _ hwf
        (by simpa [valueNsOk] using hroot) hsteps
      constructor
      · rw [get_ns_dest_dot hdot', hstab _ (Heap.Extends.refl _), hk]
      · simpa [valueNsOk] using hok'

/-- A first (`received = false`) clear-append invocation: the items start
from a fresh empty list regardless of the stored value. -/
theorem clearAppendCall_start (h h1 : Heap) (root rr : Nat)
    (dest lastKey : String) (g : Value)
    (hres1 : get_ns_dest h root dest = .ok (h1, .vnsref rr, lastKey)) :
    clearAppendCall false h root dest g =
      (true, .ok (((h1.allocList []).1.listAppend h1.listCells.length
        g).setAttr rr lastKey (.vlistref h1.listCells.length))) := by
  unfold clearAppendCall
  rw [hres1]
  rfl

/-- A subsequent (`received = true`) clear-append invocation on a stably
resolved destination whose stored value is the list object `R`: ordinary
append on a copy. -/
theorem clearAppendCall_step (h : Heap) (root rr : Nat)
    (dest lastKey : String) (g : Value) (R : Nat)
    (hres : get_ns_dest h root dest = .ok (h, .vnsref rr, lastKey))
    (hattr : h.getAttr rr lastKey = some (.vlistref R)) :
    clearAppendCall true h root dest g =
      (true, .ok (((h.allocList (h.getListD R)).1.listAppend
        h.listCells.length g).setAttr rr lastKey
        (.vlistref h.listCells.length))) := by
  unfold clearAppendCall
  rw [hres]
  simp only [hattr, copy_items]
  rfl

theorem clearExtendCall_start (h h1 : Heap) (root rr : Nat)
    (dest lastKey : String) (gl : List Value)
    (hres1 : get_ns_dest h root dest = .ok (h1, .vnsref rr, lastKey)) :
    clearExtendCall false h root dest gl =
      (true, .ok (((h1.allocList []).1.listExtend h1.listCells.length
        gl).setAttr rr lastKey (.vlistref h1.listCells.length))) := by
  unfold clearExtendCall
  rw [hres1]
  rfl

theorem clearExtendCall_step (h : Heap) (root rr : Nat)
    (dest lastKey : String) (gl : List Value) (R : Nat)
    (hres : get_ns_dest h root dest = .ok (h, .vnsref rr, lastKey))
    (hattr : h.getAttr rr lastKey = some (.vlistref R)) :
    clearExtendCall true h root dest gl =
      (true, .ok (((h.allocList (h.getListD R)).1.listExtend
        h.listCells.length gl).setAttr rr lastKey
        (.vlistref h.listCells.length))) := by
  unfold clearExtendCall
  rw [hres]
  simp only [hattr, copy_items]
  rfl

/-- Invariant of the received phase of clear-append, for an arbitrary
(possibly dotted) destination with a stable resolution: each remaining
group is appended in order onto the stored copy. -/
theorem runClearAppend_inv :
    ∀ (gs : List Value) (h : Heap) (root rr : Nat)
      (dest lastKey : String) (R : Nat) (acc : List Value),
    get_ns_dest h root dest = .ok (h, .vnsref rr, lastKey) →
    h.getAttr rr lastKey = some (.vlistref R) →
    h.getListD R = acc →
    rr < h.nsCells.length → R < h.listCells.length →
    ∃ h' R', runClearAppend true h root dest gs = (true, .ok h') ∧
      get_ns_dest h' root dest = .ok (h', .vnsref rr, lastKey) ∧
      h'.getAttr rr lastKey = some (.vlistref R') ∧
      h'.getListD R' = acc ++ gs ∧
      rr < h'.nsCells.length ∧ R' < h'.listCells.length := by
  intro gs
  induction gs with
  | nil =>
    intro h root rr dest lastKey R acc hres hattr hacc hrr hR
    exact ⟨h, R, rfl, hres, hattr, by simp [hacc], hrr, hR⟩
  | cons g gs ih =>
    intro h root rr dest lastKey R acc hres hattr hacc hrr hR
    have hstep := clearAppendCall_step h root rr dest lastKey g R hres hattr
    have hleaf : ∀ r', h.getAttr rr lastKey ≠ some (.vnsref r') := by
      intro r' hc
      rw [hattr] at hc
      exact Value.noConfusion (Option.some.inj hc)
    have hns3 : (((h.allocList (h.getListD R)).1.listAppend
        h.listCells.length g).setAttr rr lastKey
        (.vlistref h.listCells.length)).nsCells =
        (h.setAttr rr lastKey (.vlistref h.listCells.length)).nsCells :=
      setAttr_nsCells_congr rfl rr lastKey _
    have hres3 := get_ns_dest_stable_set h root rr dest lastKey
      (.vlistref h.listCells.length) _ hres hleaf hns3
    have hattr3 : (((h.allocList (h.getListD R)).1.listAppend
        h.listCells.length g).setAttr rr lastKey
        (.vlistref h.listCells.length)).getAttr rr lastKey =
        some (.vlistref h.listCells.length) := by
      apply Heap.getAttr_setAttr_self
      rw [Heap.nsCells_listAppend, Heap.nsCells_allocList]
      exact hrr
    have hlr : h.listCells.length <
        (h.allocList (h.getListD R)).1.listCells.length := by
      rw [length_listCells_allocList]; omega
    have hacc3 : (((h.allocList (h.getListD R)).1.listAppend
        h.listCells.length g).setAttr rr lastKey
        (.vlistref h.listCells.length)).getListD h.listCells.length =
        acc ++ [g] := by
      rw [getListD_setAttr, getListD_listAppend_self _ _ _ hlr,
        getListD_allocList_new, hacc]
    have hrr3 : rr < (((h.allocList (h.getListD R)).1.listAppend
        h.listCells.length g).setAttr rr lastKey
        (.vlistref h.listCells.length)).nsCells.length := by
      rw [Heap.length_setAttr, Heap.nsCells_listAppend,
        Heap.nsCells_allocList]
      exact hrr
    have hR3 : h.listCells.length <
        (((h.allocList (h.getListD R)).1.listAppend
          h.listCells.length g).setAttr rr lastKey
          (.vlistref h.listCells.length)).listCells.length := by
      rw [Heap.listCells_setAttr, length_listCells_listAppend,
        length_listCells_allocList]
      omega
    obtain ⟨h', R', hrun, hres', hattr', hacc', hrr', hR'⟩ :=
      ih _ root rr dest lastKey h.listCells.length (acc ++ [g]) hres3
        hattr3 hacc3 hrr3 hR3
    refine ⟨h', R', ?_, hres', hattr', by rw [hacc']; simp, hrr', hR'⟩
    unfold runClearAppend
    rw [hstep]
    exact hrun

/-- Invariant of the received phase of clear-extend. -/
theorem runClearExtend_inv :
    ∀ (gls : List (List Value)) (h : Heap) (root rr : Nat)
      (dest lastKey : String) (R : Nat) (acc : List Value),
    get_ns_dest h root dest = .ok (h, .vnsref rr, lastKey) →
    h.getAttr rr lastKey = some (.vlistref R) →
    h.getListD R = acc →
    rr < h.nsCells.length → R < h.listCells.length →
    ∃ h' R', runClearExtend true h root dest gls = (true, .ok h') ∧
      get_ns_dest h' root dest = .ok (h', .vnsref rr, lastKey) ∧
      h'.getAttr rr lastKey = some (.vlistref R') ∧
      h'.getListD R' = acc ++ gls.flatten ∧
      rr < h'.nsCells.length ∧ R' < h'.listCells.length := by
  intro gls
  induction gls with
  | nil =>
    intro h root rr dest lastKey R acc hres hattr hacc hrr hR
    exact ⟨h, R, rfl, hres, hattr, by simp [hacc], hrr, hR⟩
  | cons gl gls ih =>
    intro h root rr dest lastKey R acc hres hattr hacc hrr hR
    have hstep := clearExtendCall_step h root rr dest lastKey gl R hres hattr
    have hleaf : ∀ r', h.getAttr rr lastKey ≠ some (.vnsref r') := by
      intro r' hc
      rw [hattr] at hc
      exact Value.noConfusion (Option.some.inj hc)
    have hns3 : (((h.allocList (h.getListD R)).1.listExtend
        h.listCells.length gl).setAttr rr lastKey
        (.vlistref h.listCells.length)).nsCells =
        (h.setAttr rr lastKey (.vlistref h.listCells.length)).nsCells :=
      setAttr_nsCells_congr rfl rr lastKey _
    have hres3 := get_ns_dest_stable_set h root rr dest lastKey
      (.vlistref h.listCells.length) _ hres hleaf hns3
    have hattr3 : (((h.allocList (h.getListD R)).1.listExtend
        h.listCells.length gl).setAttr rr lastKey
        (.vlistref h.listCells.length)).getAttr rr lastKey =
        some (.vlistref h.listCells.length) := by
      apply Heap.getAttr_setAttr_self
      rw [Heap.nsCells_listExtend, Heap.nsCells_allocList]
      exact hrr
    have hlr : h.listCells.length <
        (h.allocList (h.getListD R)).1.listCells.length := by
      rw [length_listCells_allocList]; omega
    have hacc3 : (((h.allocList (h.getListD R)).1.listExtend
        h.listCells.length gl).setAttr rr lastKey
        (.vlistref h.listCells.length)).getListD h.listCells.length =
        acc ++ gl := by
      rw [getListD_setAttr, getListD_listExtend_self _ _ _ hlr,
        getListD_allocList_new, hacc]
    have hrr3 : rr < (((h.allocList (h.getListD R)).1.listExtend
        h.listCells.length gl).setAttr rr lastKey
        (.vlistref h.listCells.length)).nsCells.length := by
      rw [Heap.length_setAttr, Heap.nsCells_listExtend,
        Heap.nsCells_allocList]
      exact hrr
    have hR3 : h.listCells.length <
        (((h.allocList (h.getListD R)).1.listExtend
          h.listCells.length gl).setAttr rr lastKey
          (.vlistref h.listCells.length)).listCells.length := by
      rw [Heap.listCells_setAttr, length_listCells_listExtend,
        length_listCells_allocList]
      omega
    obtain ⟨h', R', hrun, hres', hattr', hacc', hrr', hR'⟩ :=
      ih _ root rr dest lastKey h.listCells.length (acc ++ gl) hres3
        hattr3 hacc3 hrr3 hR3
    refine ⟨h', R', ?_, hres', hattr', by rw [hacc']; simp, hrr', hR'⟩
    unfold runClearExtend
    rw [hstep]
    exact hrun

/-- C1: for a clear-append/clear-extend action instance over any — plain
or dotted — destination that resolves to a namespace container whose
stored default is not itself a namespace node (e.g. any declared default
sequence, or no stored value at all), the first invocation starts the
stored value at the destination from an empty list, discarding the
default, and every subsequent invocation appends/extends onto the value
stored by the previous invocation: the final stored list holds exactly
the supplied groups in order (their concatenation for clear-extend).
The clear-extend action is modelled from the spec (`src/argx/action.py`
is absent from the sources); clear-append is `ListAction` of
`src/argparse_charged/action.py`. -/
theorem clear_actions_accumulate (h h1 : Heap) (root rr : Nat)
    (dest lastKey : String)
    (hwf : h.wfNs = true) (hroot : root < h.nsCells.length)
    (hres1 : get_ns_dest h root dest = .ok (h1, .vnsref rr, lastKey))
    (hleaf : ∀ r', h1.getAttr rr lastKey ≠ some (.vnsref r'))
    (g0 : Value) (gs : List Value)
    (gl0 : List Value) (gls : List (List Value)) :
    (∃ h' R, runClearAppend false h root dest (g0 :: gs) = (true, .ok h') ∧
       get_ns_dest h' root dest = .ok (h', .vnsref rr, lastKey) ∧
       h'.getAttr rr lastKey = some (.vlistref R) ∧
       h'.getListD R = g0 :: gs) ∧
    (∃ h' R, runClearExtend false h root dest (gl0 :: gls) = (true, .ok h') ∧
       get_ns_dest h' root dest = .ok (h', .vnsref rr, lastKey) ∧
       h'.getAttr rr lastKey = some (.vlistref R) ∧
       h'.getListD R = gl0 ++ gls.flatten) := by
  obtain ⟨hstable1, hrr1⟩ := get_ns_dest_post h h1 root rr dest lastKey
    hwf hroot hres1
  constructor
  · have hstep := clearAppendCall_start h h1 root rr dest lastKey g0 hres1
    have hns3 : (((h1.allocList []).1.listAppend h1.listCells.length
        g0).setAttr rr lastKey (.vlistref h1.listCells.length)).nsCells =
        (h1.setAttr rr lastKey (.vlistref h1.listCells.length)).nsCells :=
      setAttr_nsCells_congr rfl rr lastKey _
    have hres3 := get_ns_dest_stable_set h1 root rr dest lastKey
      (.vlistref h1.listCells.length) _ hstable1 hleaf hns3
    have hattr3 : (((h1.allocList []).1.listAppend h1.listCells.length
        g0).setAttr rr lastKey
        (.vlistref h1.listCells.length)).getAttr rr lastKey =
        some (.vlistref h1.listCells.length) := by
      apply Heap.getAttr_setAttr_self
      rw [Heap.nsCells_listAppend, Heap.nsCells_allocList]
      exact hrr1
    have hlr : h1.listCells.length <
        (h1.allocList ([] : List Value)).1.listCells.length := by
      rw [length_listCells_allocList]; omega
    have hacc3 : (((h1.allocList []).1.listAppend h1.listCells.length
        g0).setAttr rr lastKey
        (.vlistref h1.listCells.length)).getListD h1.listCells.length =
        [g0] := by
      rw [getListD_setAttr, getListD_listAppend_self _ _ _ hlr,
        getListD_allocList_new]
      rfl
    have hrr3 : rr < (((h1.allocList []).1.listAppend h1.listCells.length
        g0).setAttr rr lastKey
        (.vlistref h1.listCells.length)).nsCells.length := by
      rw [Heap.length_setAttr, Heap.nsCells_listAppend,
        Heap.nsCells_allocList]
      exact hrr1
    have hR3 : h1.listCells.length <
        (((h1.allocList []).1.listAppend h1.listCells.length
          g0).setAttr rr lastKey
          (.vlistref h1.listCells.length)).listCells.length := by
      rw [Heap.listCells_setAttr, length_listCells_listAppend,
        length_listCells_allocList]
      omega
    obtain ⟨h', R', hrun, hres', hattr', hacc', -, -⟩ :=
      runClearAppend_inv gs _ root rr dest lastKey h1.listCells.length
        [g0] hres3 hattr3 hacc3 hrr3 hR3
    refine ⟨h', R', ?_, hres', hattr', by rw [hacc']; rfl⟩
    unfold runClearAppend
    rw [hstep]
    exact hrun
  · have hstep := clearExtendCall_start h h1 root rr dest lastKey gl0 hres1
    have hns3 : (((h1.allocList []).1.listExtend h1.listCells.length
        gl0).setAttr rr lastKey (.vlistref h1.listCells.length)).nsCells =
        (h1.setAttr rr lastKey (.vlistref h1.listCells.length)).nsCells :=
      setAttr_nsCells_congr rfl rr lastKey _
    have hres3 := get_ns_dest_stable_set h1 root rr dest lastKey
      (.vlistref h1.listCells.length) _ hstable1 hleaf hns3
    have hattr3 : (((h1.allocList []).1.listExtend h1.listCells.length
        gl0).setAttr rr lastKey
        (.vlistref h1.listCells.length)).getAttr rr lastKey =
        some (.vlistref h1.listCells.length) := by
      apply Heap.getAttr_setAttr_self
      rw [Heap.nsCells_listExtend, Heap.nsCells_allocList]
      exact hrr1
    have hlr : h1.listCells.length <
        (h1.allocList ([] : List Value)).1.listCells.length := by
      rw [length_listCells_allocList]; omega
    have hacc3 : (((h1.allocList []).1.listExtend h1.listCells.length
        gl0).setAttr rr lastKey
        (.vlistref h1.listCells.length)).getListD h1.listCells.length =
        gl0 := by
      rw [getListD_setAttr, getListD_listExtend_self _ _ _ hlr,
        getListD_allocList_new]
      rfl
    have hrr3 : rr < (((h1.allocList []).1.listExtend h1.listCells.length
        gl0).setAttr rr lastKey
        (.vlistref h1.listCells.length)).nsCells.length := by
      rw [Heap.length_setAttr, Heap.nsCells_listExtend,
        Heap.nsCells_allocList]
      exact hrr1
    have hR3 : h1.listCells.length <
        (((h1.allocList []).1.listExtend h1.listCells.length
          gl0).setAttr rr lastKey
          (.vlistref h1.listCells.length)).listCells.length := by
      rw [Heap.listCells_setAttr, length_listCells_listExtend,
        length_listCells_allocList]
      omega
    obtain ⟨h', R', hrun, hres', hattr', hacc', -, -⟩ :=
      runClearExtend_inv gls _ root rr dest lastKey h1.listCells.length
        gl0 hres3 hattr3 hacc3 hrr3 hR3
    refine ⟨h', R', ?_, hres', hattr', by rw [hacc']⟩
    unfold runClearExtend
    rw [hstep]
    exact hrun

/-- C1 witness: the dotted destination `bar.baz` with declared default
`["a"]` seeded at `bar.baz`: clear-append over `bar`, `baz` yields
`["bar","baz"]` (not `["a","bar","baz"]`), and clear-extend over the
groups `[bar]`, `[baz, qux]` yields `["bar","baz","qux"]`. -/
theorem clear_actions_accumulate_witness :
    (∃ h' R, runClearAppend false
        ⟨[[("bar", .vnsref 1)], [("baz", .vlistref 0)]], [[.vstr "a"]]⟩
        0 "bar.baz" [.vstr "bar", .vstr "baz"] = (true, .ok h') ∧
      get_ns_dest h' 0 "bar.baz" = .ok (h', .vnsref 1, "baz") ∧
      h'.getAttr 1 "baz" = some (.vlistref R) ∧
      h'.getListD R = [.vstr "bar", .vstr "baz"]) ∧
    (∃ h' R, runClearExtend false
        ⟨[[("bar", .vnsref 1)], [("baz", .vlistref 0)]], [[.vstr "a"]]⟩
        0 "bar.baz" [[.vstr "bar"], [.vstr "baz", .vstr "qux"]] =
        (true, .ok h') ∧
      get_ns_dest h' 0 "bar.baz" = .ok (h', .vnsref 1, "baz") ∧
      h'.getAttr 1 "baz" = some (.vlistref R) ∧
      h'.getListD R = [.vstr "bar"] ++ [[.vstr "baz", .vstr "qux"]].flatten) :=
  clear_actions_accumulate
    ⟨[[("bar", .vnsref 1)], [("baz", .vlistref 0)]], [[.vstr "a"]]⟩
    ⟨[[("bar", .vnsref 1)], [("baz", .vlistref 0)]], [[.vstr "a"]]⟩
    0 1 "bar.baz" "baz" rfl (by decide) rfl
    (fun r' hc => Value.noConfusion (Option.some.inj hc))
    (.vstr "bar") [.vstr "baz"] [.vstr "bar"] [[.vstr "baz", .vstr "qux"]]

/-! ## Frame property of the ordinary append/extend actions -/

/-- The resolver walk never touches list objects. -/
theorem resolveSteps_listCells :
    ∀ (keys : List String) (h : Heap) (cur : Value) (h' : Heap)
      (cur' : Value),
    resolveSteps h cur keys = .ok (h', cur') → h'.listCells = h.listCells := by
  intro keys
  induction keys with
  | nil =>
    intro h cur h' cur' hres
    obtain ⟨h1, -⟩ := resolveSteps_ok_nil hres
    rw [h1]
  | cons key rest ih =>
    intro h cur h' cur' hres
    simp only [resolveSteps] at hres
    split at hres
    · split at hres
      · have := ih _ _ _ _ hres
        rwa [Heap.listCells_setAttr, Heap.listCells_allocNs] at this
      · exact ih _ _ _ _ hres
    · exact Except.noConfusion hres

/-- `get_ns_dest` never touches list objects. -/
theorem get_ns_dest_listCells {h : Heap} {root : Nat} {dest : String}
    {h1 : Heap} {nsv : Value} {key : String}
    (hres : get_ns_dest h root dest = .ok (h1, nsv, key)) :
    h1.listCells = h.listCells := by
  unfold get_ns_dest at hres
  split at hres
  · obtain ⟨hh, -⟩ := Prod.mk.injEq .. ▸ Except.ok.inj hres
    rw [← hh]
  · dsimp only at hres
    split at hres
    · rename_i hm h2 c hsteps
      obtain ⟨hh, -⟩ := Prod.mk.injEq .. ▸ Except.ok.inj hres
      rw [← hh]
      exact resolveSteps_listCells _ _ _ _ _ hsteps
    · exact Except.noConfusion hres

/-- A successful `copy_items` allocates a fresh list cell and returns its
reference, leaving every existing cell untouched. -/
theorem copy_items_ok {h : Heap} {items : Option Value} {h2 : Heap}
    {lr : Nat} (hok : copy_items h items = .ok (h2, lr)) :
    lr = h.listCells.length ∧ ∃ xs, h2 = (h.allocList xs).1 := by
  unfold copy_items at hok
  split at hok
  · obtain ⟨hh, hl⟩ := Prod.mk.injEq .. ▸ Except.ok.inj hok
    exact ⟨hl.symm, [], hh.symm⟩
  · obtain ⟨hh, hl⟩ := Prod.mk.injEq .. ▸ Except.ok.inj hok
    exact ⟨hl.symm, [], hh.symm⟩
  · rename_i r
    obtain ⟨hh, hl⟩ := Prod.mk.injEq .. ▸ Except.ok.inj hok
    exact ⟨hl.symm, h.getListD r, hh.symm⟩
  · exact Except.noConfusion hok

/-- One append invocation preserves every pre-existing list cell. -/
theorem appendCall_frame {h : Heap} {root : Nat} {dest : String} {v : Value}
    {h' : Heap} (hok : appendCall h root dest v = .ok h') :
    (∀ r0, r0 < h.listCells.length →
      h'.listCells[r0]? = h.listCells[r0]?) ∧
    h.listCells.length ≤ h'.listCells.length := by
  unfold appendCall at hok
  split at hok
  · exact Except.noConfusion hok
  · rename_i h1 nsv key hres
    split at hok
    · rename_i r
      split at hok
      · exact Except.noConfusion hok
      · rename_i h2 lr hcopy
        obtain ⟨hlr, xs, hxs⟩ := copy_items_ok hcopy
        have hlc1 : h1.listCells = h.listCells := get_ns_dest_listCells hres
        have hlen : h1.listCells.length = h.listCells.length := by rw [hlc1]
        have hh' : h' = (h2.listAppend lr v).setAttr r key (.vlistref lr) :=
          (Except.ok.inj hok).symm
        subst hh'; subst hxs; subst hlr
        constructor
        · intro r0 hr0
          rw [Heap.listCells_setAttr]
          unfold Heap.listAppend Heap.allocList
          simp only
          rw [List.getElem?_set_ne (by omega)]
          rw [List.getElem?_append_left (by omega), hlc1]
        · rw [Heap.listCells_setAttr]
          unfold Heap.listAppend Heap.allocList
          simp only [List.length_set, List.length_append]
          omega
    · exact Except.noConfusion hok

/-- One extend invocation preserves every pre-existing list cell. -/
theorem extendCall_frame {h : Heap} {root : Nat} {dest : String}
    {vs : List Value} {h' : Heap}
    (hok : extendCall h root dest vs = .ok h') :
    (∀ r0, r0 < h.listCells.length →
      h'.listCells[r0]? = h.listCells[r0]?) ∧
    h.listCells.length ≤ h'.listCells.length := by
  unfold extendCall at hok
  split at hok
  · exact Except.noConfusion hok
  · rename_i h1 nsv key hres
    split at hok
    · rename_i r
      split at hok
      · exact Except.noConfusion hok
      · rename_i h2 lr hcopy
        obtain ⟨hlr, xs, hxs⟩ := copy_items_ok hcopy
        have hlc1 : h1.listCells = h.listCells := get_ns_dest_listCells hres
        have hlen : h1.listCells.length = h.listCells.length := by rw [hlc1]
        have hh' : h' = (h2.listExtend lr vs).setAttr r key (.vlistref lr) :=
          (Except.ok.inj hok).symm
        subst hh'; subst hxs; subst hlr
        constructor
        · intro r0 hr0
          rw [Heap.listCells_setAttr]
          unfold Heap.listExtend Heap.allocList
          simp only
          rw [List.getElem?_set_ne (by omega)]
          rw [List.getElem?_append_left (by omega), hlc1]
        · rw [Heap.listCells_setAttr]
          unfold Heap.listExtend Heap.allocList
          simp only [List.length_set, List.length_append]
          omega
    · exact Except.noConfusion hok

/-- C7: the append and extend actions never mutate the declared default
sequence in place — each invocation copies the current items into a fresh
list object before appending and writes the copy back — so after any
number of append/extend invocations (over any destinations) every list
object that existed before, in particular a declaration's default list,
still holds exactly its original items. -/
theorem append_extend_preserve_defaults :
    ∀ (invs : List Invocation) (h : Heap) (root : Nat) (h' : Heap),
    runInvocations h root invs = .ok h' →
    ∀ (r0 : Nat) (items : List Value), h.listCells[r0]? = some items →
      h'.listCells[r0]? = some items := by
  intro invs
  induction invs with
  | nil =>
    intro h root h' hrun r0 items hcell
    have hh : h = h' := Except.ok.inj hrun
    subst hh
    exact hcell
  | cons inv rest ih =>
    intro h root h' hrun r0 items hcell
    have hr0 : r0 < h.listCells.length := by
      by_contra hc
      rw [List.getElem?_eq_none_iff.mpr (by omega)] at hcell
      exact Option.noConfusion hcell
    cases inv with
    | app dest v =>
      simp only [runInvocations] at hrun
      split at hrun
      · rename_i h1 hcall
        obtain ⟨hframe, -⟩ := appendCall_frame hcall
        exact ih h1 root h' hrun r0 items (by rw [hframe r0 hr0]; exact hcell)
      · exact Except.noConfusion hrun
    | ext dest vs =>
      simp only [runInvocations] at hrun
      split at hrun
      · rename_i h1 hcall
        obtain ⟨hframe, -⟩ := extendCall_frame hcall
        exact ih h1 root h' hrun r0 items (by rw [hframe r0 hr0]; exact hcell)
      · exact Except.noConfusion hrun

/-- C7 witness: with declared default `["a"]` stored as list object `0`,
two appends and one extend later the default list object still holds
exactly `["a"]`. -/
theorem append_extend_preserve_defaults_witness :
    (⟨[[("foo", .vlistref 3)]],
      [[.vstr "a"], [.vstr "a", .vstr "b"],
       [.vstr "a", .vstr "b", .vstr "c"],
       [.vstr "a", .vstr "b", .vstr "c", .vstr "d"]]⟩ :
        Heap).listCells[0]? = some [.vstr "a"] :=
  append_extend_preserve_defaults
    [.app "foo" (.vstr "b"), .app "foo" (.vstr "c"), .ext "foo" [.vstr "d"]]
    ⟨[[("foo", .vlistref 0)]], [[.vstr "a"]]⟩ 0 _ rfl 0 [.vstr "a"] rfl

/-! ## Orchestrator: void-input policy and configuration-load failures -/

/-- C6: for a parse invocation with an empty input token list — so the
pre-scan does nothing and only default seeding runs — if the grammar
engine returns no unrecognized leftover tokens, then with the
exit-on-void flag set the parse reports the user-facing error
`No arguments provided`, and with the flag unset it returns successfully
with the namespace produced by delegating the default-seeded namespace,
i.e. populated purely from defaults.  This holds for both the `argx` and
the `argparse_charged` orchestrators. -/
theorem exit_on_void_policy
    (loadPy loadConf : String → Except String Conf)
    (superParse : List ActionDecl → List String → Heap → Nat →
      Except PErr (Heap × List String))
    (p : Parser) (h : Heap) (root : Nat) (h1 h2 : Heap)
    (hseed : seedActions h root p.actions = .ok h1)
    (hsuper : superParse p.actions [] h1 root = .ok (h2, [])) :
    (p.exitOnVoid = true →
      parse_known_args_argx loadPy loadConf superParse p [] h root =
        .error (.userError "No arguments provided") ∧
      parse_known_args_charged loadPy loadConf superParse p [] h root =
        .error (.userError "No arguments provided")) ∧
    (p.exitOnVoid = false →
      parse_known_args_argx loadPy loadConf superParse p [] h root =
        .ok (h2, []) ∧
      parse_known_args_charged loadPy loadConf superParse p [] h root =
        .ok (h2, [])) := by
  unfold parse_known_args_argx parse_known_args_charged
  unfold preScanArgx preScanCharged
  dsimp only
  rw [hseed]
  dsimp only
  rw [hsuper]
  dsimp only
  constructor
  · intro hev
    rw [hev]
    exact ⟨rfl, rfl⟩
  · intro hev
    rw [hev]
    exact ⟨rfl, rfl⟩

/-- C6 witness: a parser with one dotted declaration and no tokens; the
trivial grammar engine returns the seeded namespace with no leftovers. -/
theorem exit_on_void_policy_witness :
    ((⟨[⟨"a.b", .vint 1, false⟩], true, none⟩ : Parser).exitOnVoid = true →
      parse_known_args_argx (fun _ => .ok (Conf.cdict []))
          (fun _ => .ok (Conf.cdict [])) (fun _ _ hh _ => .ok (hh, []))
          ⟨[⟨"a.b", .vint 1, false⟩], true, none⟩ [] ⟨[[]], []⟩ 0 =
        .error (.userError "No arguments provided") ∧
      parse_known_args_charged (fun _ => .ok (Conf.cdict []))
          (fun _ => .ok (Conf.cdict [])) (fun _ _ hh _ => .ok (hh, []))
          ⟨[⟨"a.b", .vint 1, false⟩], true, none⟩ [] ⟨[[]], []⟩ 0 =
        .error (.userError "No arguments provided")) ∧
    ((⟨[⟨"a.b", .vint 1, false⟩], true, none⟩ : Parser).exitOnVoid = false →
      parse_known_args_argx (fun _ => .ok (Conf.cdict []))
          (fun _ => .ok (Conf.cdict [])) (fun _ _ hh _ => .ok (hh, []))
          ⟨[⟨"a.b", .vint 1, false⟩], true, none⟩ [] ⟨[[]], []⟩ 0 =
        .ok (⟨[[("a", .vnsref 1)], [("b", .vint 1)]], []⟩, []) ∧
      parse_known_args_charged (fun _ => .ok (Conf.cdict []))
          (fun _ => .ok (Conf.cdict [])) (fun _ _ hh _ => .ok (hh, []))
          ⟨[⟨"a.b", .vint 1, false⟩], true, none⟩ [] ⟨[[]], []⟩ 0 =
        .ok (⟨[[("a", .vnsref 1)], [("b", .vint 1)]], []⟩, [])) :=
  exit_on_void_policy (fun _ => .ok (Conf.cdict []))
    (fun _ => .ok (Conf.cdict [])) (fun _ _ hh _ => .ok (hh, []))
    ⟨[⟨"a.b", .vint 1, false⟩], true, none⟩ ⟨[[]], []⟩ 0
    ⟨[[("a", .vnsref 1)], [("b", .vint 1)]], []⟩
    ⟨[[("a", .vnsref 1)], [("b", .vint 1)]], []⟩ rfl rfl

/-- The pre-scans process the token list left to right: scanning a
concatenation is scanning the first part and continuing on the updated
action list. -/
theorem preScanArgx_cons_eq (loadPy loadConf : String → Except String Conf)
    (pc : Option Char) (acts : List ActionDecl) (x : String)
    (rest : List String) :
    preScanArgx loadPy loadConf pc acts (x :: rest) =
      if isConfRef pc x then
        if pyEndsWith (pyDrop x 1) ".py" then
          match loadPy (pyDrop x 1) with
          | .error msg =>
            .error (.userError ("Cannot import [" ++ pyDrop x 1 ++ "]: " ++ msg))
          | .ok c =>
            match set_defaults_from_configs acts c true with
            | .ok acts1 => preScanArgx loadPy loadConf pc acts1 rest
            | .error e => .error (.uncaught (pyExcMsg e))
        else
          match loadConf (pyDrop x 1) with
          | .error msg => .error (.uncaught msg)
          | .ok c =>
            match set_defaults_from_configs acts c true with
            | .ok acts1 => preScanArgx loadPy loadConf pc acts1 rest
            | .error e => .error (.uncaught (pyExcMsg e))
      else
        match preScanArgx loadPy loadConf pc acts rest with
        | .ok (acts1, newArgs) => .ok (acts1, x :: newArgs)
        | .error e => .error e := rfl

theorem preScanArgx_append (loadPy loadConf : String → Except String Conf)
    (pc : Option Char) :
    ∀ (xs ys : List String) (acts : List ActionDecl),
    preScanArgx loadPy loadConf pc acts (xs ++ ys) =
      match preScanArgx loadPy loadConf pc acts xs with
      | .ok p1 =>
        match preScanArgx loadPy loadConf pc p1.1 ys with
        | .ok p2 => .ok (p2.1, p1.2 ++ p2.2)
        | .error e => .error e
      | .error e => .error e := by
  intro xs
  induction xs with
  | nil =>
    intro ys acts
    have h0 : preScanArgx loadPy loadConf pc acts ([] : List String) =
        .ok (acts, []) := rfl
    rw [List.nil_append]
    rcases hy : preScanArgx loadPy loadConf pc acts ys with e | p2 <;>
      simp [h0, hy]
  | cons x xs ih =>
    intro ys acts
    rw [List.cons_append, preScanArgx_cons_eq, preScanArgx_cons_eq]
    by_cases hx : isConfRef pc x = true
    · rw [if_pos hx, if_pos hx]
      by_cases hpy : pyEndsWith (pyDrop x 1) ".py" = true
      · rw [if_pos hpy, if_pos hpy]
        rcases hload : loadPy (pyDrop x 1) with msg | c
        · rfl
        · dsimp only
          rcases hmerge : set_defaults_from_configs acts c true with e | acts1
          · rfl
          · exact ih ys acts1
      · rw [if_neg hpy, if_neg hpy]
        rcases hload : loadConf (pyDrop x 1) with msg | c
        · rfl
        · dsimp only
          rcases hmerge : set_defaults_from_configs acts c true with e | acts1
          · rfl
          · exact ih ys acts1
    · rw [if_neg hx, if_neg hx]
      rw [ih ys acts]
      rcases h1 : preScanArgx loadPy loadConf pc acts xs with e | p1
      · rfl
      · obtain ⟨a1, n1⟩ := p1
        dsimp only
        rcases h2 : preScanArgx loadPy loadConf pc a1 ys with e | p2
        · rfl
        · obtain ⟨a2, n2⟩ := p2
          rfl

theorem preScanCharged_cons_eq (loadPy loadConf : String → Except String Conf)
    (pc : Option Char) (acts : List ActionDecl) (x : String)
    (rest : List String) :
    preScanCharged loadPy loadConf pc acts (x :: rest) =
      if isConfRef pc x then
        match (match (if pyEndsWith (pyDrop x 1) ".py"
            then loadPy (pyDrop x 1) else loadConf (pyDrop x 1)) with
          | .ok c =>
            match set_defaults_from_configs acts c true with
            | .ok acts2 => (.ok acts2 : Except String (List ActionDecl))
            | .error e => .error (pyExcMsg e)
          | .error msg => .error msg) with
        | .ok acts1 => preScanCharged loadPy loadConf pc acts1 rest
        | .error msg =>
          .error (.userError ("Cannot import [" ++ pyDrop x 1 ++ "]: " ++ msg))
      else
        match preScanCharged loadPy loadConf pc acts rest with
        | .ok (acts1, newArgs) => .ok (acts1, x :: newArgs)
        | .error e => .error e := rfl

theorem preScanCharged_append (loadPy loadConf : String → Except String Conf)
    (pc : Option Char) :
    ∀ (xs ys : List String) (acts : List ActionDecl),
    preScanCharged loadPy loadConf pc acts (xs ++ ys) =
      match preScanCharged loadPy loadConf pc acts xs with
      | .ok p1 =>
        match preScanCharged loadPy loadConf pc p1.1 ys with
        | .ok p2 => .ok (p2.1, p1.2 ++ p2.2)
        | .error e => .error e
      | .error e => .error e := by
  intro xs
  induction xs with
  | nil =>
    intro ys acts
    have h0 : preScanCharged loadPy loadConf pc acts ([] : List String) =
        .ok (acts, []) := rfl
    rw [List.nil_append]
    rcases hy : preScanCharged loadPy loadConf pc acts ys with e | p2 <;>
      simp [h0, hy]
  | cons x xs ih =>
    intro ys acts
    rw [List.cons_append, preScanCharged_cons_eq, preScanCharged_cons_eq]
    by_cases hx : isConfRef pc x = true
    · rw [if_pos hx, if_pos hx]
      rcases hload : (if pyEndsWith (pyDrop x 1) ".py"
          then loadPy (pyDrop x 1) else loadConf (pyDrop x 1)) with msg | c
      · rfl
      · dsimp only
        rcases hmerge : set_defaults_from_configs acts c true with e | acts1
        · rfl
        · exact ih ys acts1
    · rw [if_neg hx, if_neg hx]
      rw [ih ys acts]
      rcases h1 : preScanCharged loadPy loadConf pc acts xs with e | p1
      · rfl
      · obtain ⟨a1, n1⟩ := p1
        dsimp only
        rcases h2 : preScanCharged loadPy loadConf pc a1 ys with e | p2
        · rfl
        · obtain ⟨a2, n2⟩ := p2
          rfl

/-- C8 (amended): for a `@file` configuration-reference token whose load
fails, the `argparse_charged` orchestrator always reports the failure
through the standard user-facing error path; the `argx` orchestrator does
so only for host-code (`.py`) references — a failing load of a non-`.py`
configuration reference escapes `argx`'s `parse_known_args` as an
uncaught exception, because only `import_pyfile` sits inside its
`try`/`except`. -/
theorem config_load_error_paths
    (loadPy loadConf : String → Except String Conf)
    (superParse : List ActionDecl → List String → Heap → Nat →
      Except PErr (Heap × List String))
    (p : Parser) (h : Heap) (root : Nat)
    (args0 : List String) (arg : String) (rest : List String) (c : Char)
    (acts1 : List ActionDecl) (new0 : List String)
    (acts1c : List ActionDecl) (new0c : List String)
    (hpc : p.fromfilePrefixChars = some c)
    (href : isConfRef (some c) arg = true)
    (hscanA : preScanArgx loadPy loadConf (some c) p.actions args0 =
      .ok (acts1, new0))
    (hscanC : preScanCharged loadPy loadConf (some c) p.actions args0 =
      .ok (acts1c, new0c)) :
    (pyEndsWith (pyDrop arg 1) ".py" = true →
      ∀ msg, loadPy (pyDrop arg 1) = .error msg →
        parse_known_args_argx loadPy loadConf superParse p
            (args0 ++ arg :: rest) h root =
          .error (.userError
            ("Cannot import [" ++ pyDrop arg 1 ++ "]: " ++ msg)) ∧
        parse_known_args_charged loadPy loadConf superParse p
            (args0 ++ arg :: rest) h root =
          .error (.userError
            ("Cannot import [" ++ pyDrop arg 1 ++ "]: " ++ msg))) ∧
    (pyEndsWith (pyDrop arg 1) ".py" = false →
      ∀ msg, loadConf (pyDrop arg 1) = .error msg →
        parse_known_args_argx loadPy loadConf superParse p
            (args0 ++ arg :: rest) h root =
          .error (.uncaught msg) ∧
        parse_known_args_charged loadPy loadConf superParse p
            (args0 ++ arg :: rest) h root =
          .error (.userError
            ("Cannot import [" ++ pyDrop arg 1 ++ "]: " ++ msg))) := by
  unfold parse_known_args_argx parse_known_args_charged
  rw [hpc, preScanArgx_append, preScanCharged_append, hscanA, hscanC]
  dsimp only
  rw [preScanArgx_cons_eq, preScanCharged_cons_eq, if_pos href, if_pos href]
  constructor
  · intro hpy msg hload
    rw [if_pos hpy, if_pos hpy, hload]
    exact ⟨rfl, rfl⟩
  · intro hpy msg hload
    rw [hpy, hload]
    simp only [Bool.false_eq_true, if_false]
    exact ⟨trivial, trivial⟩

/-- C8 witness: after an ordinary token is scanned, a failing `.py`
reference is reported through the user-facing error path by both
orchestrators. -/
theorem config_load_error_paths_witness :
    parse_known_args_argx (fun _ => .error "boom")
        (fun _ => .ok (Conf.cdict [])) (fun _ _ hh _ => .ok (hh, []))
        ⟨[], false, some '@'⟩ ["pos", "@conf.py"] ⟨[[]], []⟩ 0 =
      .error (.userError
        ("Cannot import [" ++ pyDrop "@conf.py" 1 ++ "]: " ++ "boom")) ∧
    parse_known_args_charged (fun _ => .error "boom")
        (fun _ => .ok (Conf.cdict [])) (fun _ _ hh _ => .ok (hh, []))
        ⟨[], false, some '@'⟩ ["pos", "@conf.py"] ⟨[[]], []⟩ 0 =
      .error (.userError
        ("Cannot import [" ++ pyDrop "@conf.py" 1 ++ "]: " ++ "boom")) :=
  (config_load_error_paths (fun _ => .error "boom")
    (fun _ => .ok (Conf.cdict [])) (fun _ _ hh _ => .ok (hh, []))
    ⟨[], false, some '@'⟩ ⟨[[]], []⟩ 0 ["pos"] "@conf.py" [] '@'
    [] ["pos"] [] ["pos"] rfl rfl rfl rfl).1 rfl "boom" rfl

/-- C8 counterexample: a failing non-`.py` reference (`@conf.toml`, the
loader raising) escapes the `argx` parse as an uncaught exception rather
than being reported through the user-facing error path. -/
theorem config_load_uncaught_counterexample :
    parse_known_args_argx (fun _ => .ok (Conf.cdict []))
        (fun _ => .error "No such file") (fun _ _ hh _ => .ok (hh, []))
        ⟨[], false, some '@'⟩ ["@conf.toml"] ⟨[[]], []⟩ 0 =
      .error (.uncaught "No such file") ∧
    (∀ msg, PErr.uncaught "No such file" ≠ PErr.userError msg) := by
  refine ⟨rfl, ?_⟩
  intro msg hne
  exact PErr.noConfusion hne

/-- C10 witness: resolving `"x.y"` over a root whose attribute `x` holds
`None` replaces the `None` by a fresh namespace; the intermediate
position then reads back non-`None`. -/
theorem resolver_none_as_missing_witness :
    ∃ v, readPath ⟨[[("x", .vnsref 1)], []], []⟩ (.vnsref 0) ["x"] = some v ∧
      v ≠ .vnone :=
  resolver_none_as_missing.2.2 ⟨[[("x", .vnone)]], []⟩ 0 "x.y"
    ⟨[[("x", .vnsref 1)], []], []⟩ (.vnsref 1) "y"
    rfl (by decide) rfl rfl [] "x" [] rfl

end Argx
